import Mathlib

/-!
Verification development for the afw convolution / warping core
(src/math/ConvolveImage.cc, src/math/detail/ConvolveWithInterpolation.cc,
src/math/warpExposure.cc), shallowly embedded over exact rational pixel
arithmetic.  Images are total pixel functions together with their declared
dimensions; the C++ in-place loops become folds over index ranges that
rebuild the image function, and functions that throw become Except values
whose error branch is taken before any write, mirroring the source order
of checks and loops.
-/

namespace afw

/-- A 2-D image: declared dimensions plus a total pixel function. -/
structure Image where
  width : ℕ
  height : ℕ
  pix : ℕ → ℕ → ℚ

/-- Write one pixel. -/
def Image.set (im : Image) (x y : ℕ) (v : ℚ) : Image :=
  ⟨im.width, im.height, fun a b => if a = x ∧ b = y then v else im.pix a b⟩

theorem Image.set_pix (im : Image) (x y a b : ℕ) (v : ℚ) :
    (im.set x y v).pix a b = if a = x ∧ b = y then v else im.pix a b := rfl

theorem Image.set_width (im : Image) (x y : ℕ) (v : ℚ) :
    (im.set x y v).width = im.width := rfl

theorem Image.set_height (im : Image) (x y : ℕ) (v : ℚ) :
    (im.set x y v).height = im.height := rfl

/-- An all-zero image, the model of a freshly allocated working image. -/
def zeroImage (w h : ℕ) : Image := ⟨w, h, fun _ _ => 0⟩

/-- One row-major pass over one row: pixel x0+i of row y is rewritten, in order
of increasing i, to a value that may depend on the pixel's current value.
This is the common shape of every inner loop in ConvolveImage.cc. -/
def mapRow (x0 y : ℕ) (g : ℕ → ℚ → ℚ) (w : ℕ) (out : Image) : Image :=
  (List.range w).foldl (fun o i => o.set (x0 + i) y (g i (o.pix (x0 + i) y))) out

/-- Row-major pass over the rectangle [x0, x0+w) x [y0, y0+h). -/
def mapRegion (x0 y0 w h : ℕ) (f : ℕ → ℕ → ℚ → ℚ) (out : Image) : Image :=
  (List.range h).foldl (fun o j => mapRow x0 (y0 + j) (fun i => f i j) w o) out

theorem mapRow_succ (x0 y : ℕ) (g : ℕ → ℚ → ℚ) (n : ℕ) (out : Image) :
    mapRow x0 y g (n + 1) out =
      (mapRow x0 y g n out).set (x0 + n) y
        (g n ((mapRow x0 y g n out).pix (x0 + n) y)) := by
  simp [mapRow, List.range_succ]

theorem mapRow_pix (x0 y : ℕ) (g : ℕ → ℚ → ℚ) (w : ℕ) (out : Image) (a b : ℕ) :
    (mapRow x0 y g w out).pix a b =
      if b = y ∧ x0 ≤ a ∧ a < x0 + w then g (a - x0) (out.pix a b)
      else out.pix a b := by
  induction w generalizing a b with
  | zero =>
    rw [if_neg (by omega : ¬ (b = y ∧ x0 ≤ a ∧ a < x0 + 0))]
    rfl
  | succ n ih =>
    rw [mapRow_succ, Image.set_pix]
    by_cases hab : a = x0 + n ∧ b = y
    · obtain ⟨ha, hb⟩ := hab
      rw [if_pos ⟨ha, hb⟩, ih]
      rw [if_neg (by omega : ¬ (y = y ∧ x0 ≤ x0 + n ∧ x0 + n < x0 + n))]
      rw [if_pos (by omega : b = y ∧ x0 ≤ a ∧ a < x0 + (n + 1))]
      subst ha
      rw [Nat.add_sub_cancel_left, hb]
    · rw [if_neg hab, ih]
      by_cases hin : b = y ∧ x0 ≤ a ∧ a < x0 + n
      · rw [if_pos hin, if_pos (by omega : b = y ∧ x0 ≤ a ∧ a < x0 + (n + 1))]
      · rw [if_neg hin, if_neg (by omega : ¬ (b = y ∧ x0 ≤ a ∧ a < x0 + (n + 1)))]

theorem mapRow_width (x0 y : ℕ) (g : ℕ → ℚ → ℚ) (w : ℕ) (out : Image) :
    (mapRow x0 y g w out).width = out.width := by
  induction w with
  | zero => rfl
  | succ n ih =>
    rw [mapRow_succ, Image.set_width, ih]

theorem mapRow_height (x0 y : ℕ) (g : ℕ → ℚ → ℚ) (w : ℕ) (out : Image) :
    (mapRow x0 y g w out).height = out.height := by
  induction w with
  | zero => rfl
  | succ n ih =>
    rw [mapRow_succ, Image.set_height, ih]

theorem mapRegion_succ (x0 y0 w n : ℕ) (f : ℕ → ℕ → ℚ → ℚ) (out : Image) :
    mapRegion x0 y0 w (n + 1) f out =
      mapRow x0 (y0 + n) (fun i => f i n) w (mapRegion x0 y0 w n f out) := by
  simp [mapRegion, List.range_succ]

theorem mapRegion_pix (x0 y0 w h : ℕ) (f : ℕ → ℕ → ℚ → ℚ) (out : Image) (a b : ℕ) :
    (mapRegion x0 y0 w h f out).pix a b =
      if x0 ≤ a ∧ a < x0 + w ∧ y0 ≤ b ∧ b < y0 + h
      then f (a - x0) (b - y0) (out.pix a b)
      else out.pix a b := by
  induction h generalizing a b with
  | zero =>
    rw [if_neg (by omega : ¬ (x0 ≤ a ∧ a < x0 + w ∧ y0 ≤ b ∧ b < y0 + 0))]
    rfl
  | succ n ih =>
    rw [mapRegion_succ, mapRow_pix]
    simp only [ih]
    by_cases hrow : b = y0 + n ∧ x0 ≤ a ∧ a < x0 + w
    · rw [if_pos hrow]
      have hnot : ¬ (x0 ≤ a ∧ a < x0 + w ∧ y0 ≤ b ∧ b < y0 + n) := by omega
      rw [if_neg hnot,
        if_pos (by omega : x0 ≤ a ∧ a < x0 + w ∧ y0 ≤ b ∧ b < y0 + (n + 1))]
      congr 1
      omega
    · rw [if_neg hrow]
      by_cases hin : x0 ≤ a ∧ a < x0 + w ∧ y0 ≤ b ∧ b < y0 + n
      · rw [if_pos hin,
          if_pos (by omega : x0 ≤ a ∧ a < x0 + w ∧ y0 ≤ b ∧ b < y0 + (n + 1))]
      · rw [if_neg hin,
          if_neg (by omega : ¬ (x0 ≤ a ∧ a < x0 + w ∧ y0 ≤ b ∧ b < y0 + (n + 1)))]

theorem mapRegion_width (x0 y0 w h : ℕ) (f : ℕ → ℕ → ℚ → ℚ) (out : Image) :
    (mapRegion x0 y0 w h f out).width = out.width := by
  induction h with
  | zero => rfl
  | succ n ih =>
    rw [mapRegion_succ, mapRow_width, ih]

theorem mapRegion_height (x0 y0 w h : ℕ) (f : ℕ → ℕ → ℚ → ℚ) (out : Image) :
    (mapRegion x0 y0 w h f out).height = out.height := by
  induction h with
  | zero => rfl
  | succ n ih =>
    rw [mapRegion_succ, mapRow_height, ih]

/-- Modelled from the spec: the continuous position associated with a pixel
index (afwImage::indexToPosition, consumed from a header outside src/).
The claims do not depend on the offset convention, so the index is used
directly as the position. -/
def indexToPosition (i : ℕ) : ℚ := (i : ℚ)

/-- Sum of a kW x kH weight image; the kernel-sum value returned by the
computeImage capability and used for optional normalization. -/
def weightSum (w : ℕ → ℕ → ℚ) (kW kH : ℕ) : ℚ :=
  ∑ j ∈ Finset.range kH, ∑ i ∈ Finset.range kW, w i j

/-- Modelled from the spec: the dense Point Convolution Primitive
(convolveAtAPoint, declared in a header outside src/): one output pixel is
the weighted sum of the kW x kH input neighborhood whose origin is
(x0, y0) against the kernel weights. -/
def convolveAtAPoint (inI : Image) (x0 y0 : ℕ) (w : ℕ → ℕ → ℚ) (kW kH : ℕ) : ℚ :=
  ∑ j ∈ Finset.range kH, ∑ i ∈ Finset.range kW, inI.pix (x0 + i) (y0 + j) * w i j

/-- Modelled from the spec: the separable Point Convolution Primitive, the
two-pass row-then-column weighted sum. -/
def convolveAtAPointSep (inI : Image) (x0 y0 : ℕ) (kx ky : ℕ → ℚ) (kW kH : ℕ) : ℚ :=
  ∑ j ∈ Finset.range kH, ky j * ∑ i ∈ Finset.range kW, kx i * inI.pix (x0 + i) (y0 + j)

/-- One kernel row of the dense convolution added onto the partial output
pixel, skipping zero kernel values, as in the anonymous-namespace helper
convolveOneKernelRow of ConvolveImage.cc. -/
def convolveOneKernelRow (inI : Image) (xin yin : ℕ) (krow : ℕ → ℚ) (kW : ℕ)
    (cur : ℚ) : ℚ :=
  cur + ∑ i ∈ Finset.range kW, if krow i = 0 then 0 else inI.pix (xin + i) yin * krow i

/-- Modelled from the spec: normalization of one 1-D vector of a separable
kernel divides it by its own sum (so the implied dense outer product is
divided by the full kernel sum). -/
def normalizeVec (v : ℕ → ℚ) (n : ℕ) : ℕ → ℚ :=
  fun i => v i / ∑ t ∈ Finset.range n, v t

/-- The kernel shapes dispatched on by basicConvolve.  The weight capability
takes the continuous (x, y) position first, then kernel indices; the sv flag
is isSpatiallyVarying.  A delta-function kernel has a single unit weight at
kernel index (px, py) and is never spatially varying. -/
inductive Kernel where
  | delta (kW kH ctrX ctrY px py : ℕ)
  | separable (kW kH ctrX ctrY : ℕ) (sv : Bool) (kx ky : ℚ → ℚ → ℕ → ℚ)
  | generic (kW kH ctrX ctrY : ℕ) (sv : Bool) (w : ℚ → ℚ → ℕ → ℕ → ℚ)

def Kernel.width : Kernel → ℕ
  | .delta kW _ _ _ _ _ => kW
  | .separable kW _ _ _ _ _ _ => kW
  | .generic kW _ _ _ _ _ => kW

def Kernel.height : Kernel → ℕ
  | .delta _ kH _ _ _ _ => kH
  | .separable _ kH _ _ _ _ _ => kH
  | .generic _ kH _ _ _ _ => kH

def Kernel.ctrX : Kernel → ℕ
  | .delta _ _ cx _ _ _ => cx
  | .separable _ _ cx _ _ _ _ => cx
  | .generic _ _ cx _ _ _ => cx

def Kernel.ctrY : Kernel → ℕ
  | .delta _ _ _ cy _ _ => cy
  | .separable _ _ _ cy _ _ _ => cy
  | .generic _ _ _ cy _ _ => cy

def Kernel.isSpatiallyVarying : Kernel → Bool
  | .delta _ _ _ _ _ _ => false
  | .separable _ _ _ _ sv _ _ => sv
  | .generic _ _ _ _ sv _ => sv

/-- The dense weight image produced by the computeImage capability of each
kernel shape at a given position (un-normalized). -/
def Kernel.denseWeight : Kernel → ℚ → ℚ → ℕ → ℕ → ℚ
  | .delta _ _ _ _ px py => fun _ _ i j => if i = px ∧ j = py then 1 else 0
  | .separable _ _ _ _ _ kx ky => fun a b i j => kx a b i * ky a b j
  | .generic _ _ _ _ _ w => w

/-- One row of the spatially-invariant generic path of basicConvolve: first
zero the output row from cnvStartX to the end of the row (the source zeroes
up to row_end, not up to cnvEndX), then accumulate one kernel row at a time
with convolveOneKernelRow.  Here wd is the (possibly normalized) fixed
weight image, width the image width, j the input start row and y the output
row. -/
def genericInvariantRow (inI : Image) (wd : ℕ → ℕ → ℚ) (kW kH ctrX width cnvW j y : ℕ)
    (out : Image) : Image :=
  (List.range kH).foldl
    (fun o ky =>
      mapRow ctrX y
        (fun x cur => convolveOneKernelRow inI x (j + ky) (fun i => wd i ky) kW cur) cnvW o)
    (mapRow ctrX y (fun _ _ => 0) (width - ctrX) out)

/-- The row loop of the spatially-invariant generic path. -/
def genericInvariantBody (inI : Image) (wd : ℕ → ℕ → ℚ) (kW kH ctrX ctrY width cnvW cnvH : ℕ)
    (out : Image) : Image :=
  (List.range cnvH).foldl
    (fun o j => genericInvariantRow inI wd kW kH ctrX width cnvW j (ctrY + j) o) out

/-- Output pixel value of the spatially-varying generic path at region
offset (i, j): kernel image computed un-normalized at the pixel position,
dense point convolution, then optional division by the kernel sum. -/
def genericVaryingValue (inI : Image) (w : ℚ → ℚ → ℕ → ℕ → ℚ) (dn : Bool)
    (kW kH ctrX ctrY i j : ℕ) : ℚ :=
  let kImg := w (indexToPosition (ctrX + i)) (indexToPosition (ctrY + j))
  let v := convolveAtAPoint inI i j kImg kW kH
  if dn then v / weightSum kImg kW kH else v

/-- The fixed weight image of the spatially-invariant generic path: the
computeImage capability evaluated once (at the default position), normalized
up front when requested. -/
def invariantWeights (w : ℚ → ℚ → ℕ → ℕ → ℚ) (dn : Bool) (kW kH : ℕ) : ℕ → ℕ → ℚ :=
  let wRaw := w (indexToPosition 0) (indexToPosition 0)
  if dn then fun i j => wRaw i j / weightSum wRaw kW kH else wRaw

/-- The generic (dense) form of basicConvolve from ConvolveImage.cc: checks,
then either the spatially-varying per-pixel loop (kernel image recomputed at
the position of every output pixel, optional division by the kernel sum) or
the spatially-invariant row-accumulation loop with the weight image computed
once (normalized up front when requested). -/
def basicConvolveGeneric (out inI : Image) (kW kH ctrX ctrY : ℕ) (sv : Bool)
    (w : ℚ → ℚ → ℕ → ℕ → ℚ) (dn : Bool) : Except String Image :=
  if ¬ (out.width = inI.width ∧ out.height = inI.height) then
    Except.error "convolvedImage not the same size as inImage"
  else if inI.width < kW ∨ inI.height < kH then
    Except.error "inImage smaller than kernel in columns and/or rows"
  else
    let cnvW := inI.width + 1 - kW
    let cnvH := inI.height + 1 - kH
    if sv then
      Except.ok (mapRegion ctrX ctrY cnvW cnvH
        (fun i j _ => genericVaryingValue inI w dn kW kH ctrX ctrY i j) out)
    else
      Except.ok (genericInvariantBody inI (invariantWeights w dn kW kH)
        kW kH ctrX ctrY inI.width cnvW cnvH out)

/-- The delta-function fast path of basicConvolve: a plain pixel copy at the
offset of the single unit weight.  The second precondition check of the
source compares the convolved image (not the input image) against the
kernel, which is kept here. -/
def basicConvolveDelta (out inI : Image) (kW kH ctrX ctrY px py : ℕ) :
    Except String Image :=
  if ¬ (out.width = inI.width ∧ out.height = inI.height) then
    Except.error "convolvedImage not the same size as inImage"
  else if out.width < kW ∨ out.height < kH then
    Except.error "inImage smaller than kernel in columns and/or rows"
  else
    let cnvW := inI.width + 1 - kW
    let cnvH := inI.height + 1 - kH
    Except.ok (mapRegion ctrX ctrY cnvW cnvH
      (fun i j _ => inI.pix (px + i) (py + j)) out)

/-- The separable fast path of basicConvolve.  The computeVectors capability
is modelled as producing the two 1-D vectors at the requested position
(normalized per vector when requested) together with the un-normalized
kernel sum. -/
def basicConvolveSep (out inI : Image) (kW kH ctrX ctrY : ℕ) (sv : Bool)
    (kx ky : ℚ → ℚ → ℕ → ℚ) (dn : Bool) : Except String Image :=
  if ¬ (out.width = inI.width ∧ out.height = inI.height) then
    Except.error "convolvedImage not the same size as inImage"
  else if inI.width < kW ∨ inI.height < kH then
    Except.error "inImage smaller than kernel in columns and/or rows"
  else
    let cnvW := inI.width + 1 - kW
    let cnvH := inI.height + 1 - kH
    if sv then
      Except.ok (mapRegion ctrX ctrY cnvW cnvH
        (fun i j _ =>
          let kxRaw := kx (indexToPosition (ctrX + i)) (indexToPosition (ctrY + j))
          let kyRaw := ky (indexToPosition (ctrX + i)) (indexToPosition (ctrY + j))
          let kSum := (∑ t ∈ Finset.range kW, kxRaw t) * (∑ t ∈ Finset.range kH, kyRaw t)
          let kxv := if dn then normalizeVec kxRaw kW else kxRaw
          let kyv := if dn then normalizeVec kyRaw kH else kyRaw
          let v := convolveAtAPointSep inI i j kxv kyv kW kH
          if dn then v / kSum else v) out)
    else
      let kxv := if dn then normalizeVec (kx (indexToPosition 0) (indexToPosition 0)) kW
                 else kx (indexToPosition 0) (indexToPosition 0)
      let kyv := if dn then normalizeVec (ky (indexToPosition 0) (indexToPosition 0)) kH
                 else ky (indexToPosition 0) (indexToPosition 0)
      Except.ok (mapRegion ctrX ctrY cnvW cnvH
        (fun i j _ => convolveAtAPointSep inI i j kxv kyv kW kH) out)

/-- basicConvolve with its kernel-shape dispatch (the dynamic casts of the
source): delta-function kernels and separable kernels go to their fast
paths, everything else to the generic dense path. -/
def basicConvolve (out inI : Image) (k : Kernel) (dn : Bool) : Except String Image :=
  match k with
  | .delta kW kH cx cy px py => basicConvolveDelta out inI kW kH cx cy px py
  | .separable kW kH cx cy sv kx ky => basicConvolveSep out inI kW kH cx cy sv kx ky dn
  | .generic kW kH cx cy sv w => basicConvolveGeneric out inI kW kH cx cy sv w dn

/-- Final state of the in-place output image after a call that may throw:
on success the returned image, on an exception the image as it was before
the call (no writes happen on the error branches of the model). -/
def runConv (out : Image) (r : Except String Image) : Image :=
  match r with
  | Except.ok v => v
  | Except.error _ => out

/-- An axis-aligned rectangle given by its minimum point and extents. -/
structure BBox where
  x0 : ℕ
  y0 : ℕ
  w : ℕ
  h : ℕ

def BBox.contains (b : BBox) (x y : ℕ) : Prop :=
  b.x0 ≤ x ∧ x < b.x0 + b.w ∧ b.y0 ≤ y ∧ y < b.y0 + b.h

instance (b : BBox) (x y : ℕ) : Decidable (b.contains x y) := by
  unfold BBox.contains
  infer_instance

/-- Rectangle copy from the input image into the output image (the subimage
assignment used by the copyRegion helpers of ConvolveImage.cc). -/
def copyRegion (out inI : Image) (b : BBox) : Image :=
  mapRegion b.x0 b.y0 b.w b.h (fun i j _ => inI.pix (b.x0 + i) (b.y0 + j)) out

/-- The four border strips of copyBorder, exactly as computed in the source. -/
def bottomEdge (imW imH kW kH kCtrX kCtrY : ℕ) : BBox := ⟨0, 0, imW, kCtrY⟩

def topEdge (imW imH kW kH kCtrX kCtrY : ℕ) : BBox :=
  ⟨0, imH - (kH - (1 + kCtrY)), imW, kH - (1 + kCtrY)⟩

def leftEdge (imW imH kW kH kCtrX kCtrY : ℕ) : BBox :=
  ⟨0, kCtrY, kCtrX, imH + 1 - kH⟩

def rightEdge (imW imH kW kH kCtrX kCtrY : ℕ) : BBox :=
  ⟨imW - (kW - (1 + kCtrX)), kCtrY, kW - (1 + kCtrX), imH + 1 - kH⟩

/-- copyBorder of ConvolveImage.cc: copy the bottom, top, left and right
strips from the input image (the edge-bit OR applies only to the mask plane
of masked images and is not part of the pixel model). -/
def copyBorder (out inI : Image) (kW kH kCtrX kCtrY : ℕ) : Image :=
  copyRegion
    (copyRegion
      (copyRegion
        (copyRegion out inI (bottomEdge inI.width inI.height kW kH kCtrX kCtrY))
        inI (topEdge inI.width inI.height kW kH kCtrX kCtrY))
      inI (leftEdge inI.width inI.height kW kH kCtrX kCtrY))
    inI (rightEdge inI.width inI.height kW kH kCtrX kCtrY)

/-- convolve of ConvolveImage.cc: basicConvolve followed by copyBorder. -/
def convolve (out inI : Image) (k : Kernel) (dn : Bool) (edgeBit : ℤ) :
    Except String Image :=
  Except.map (fun o => copyBorder o inI k.width k.height k.ctrX k.ctrY)
    (basicConvolve out inI k dn)

/-- The valid (written) output region of a convolution, as a box. -/
def regionOf (inW inH kW kH ctrX ctrY : ℕ) : BBox :=
  ⟨ctrX, ctrY, inW + 1 - kW, inH + 1 - kH⟩

/-- Skipping zero kernel weights does not change a weighted row sum. -/
theorem sum_if_zero_weight (s : Finset ℕ) (f g : ℕ → ℚ) :
    ∑ i ∈ s, (if g i = 0 then 0 else f i * g i) = ∑ i ∈ s, f i * g i := by
  refine Finset.sum_congr rfl fun i _ => ?_
  by_cases h : g i = 0
  · simp [h]
  · simp [h]

theorem genericInvariantAccum_pix (inI : Image) (wd : ℕ → ℕ → ℚ)
    (kW ctrX cnvW j y : ℕ) (n : ℕ) (z : Image) (a b : ℕ) :
    ((List.range n).foldl
      (fun o ky =>
        mapRow ctrX y
          (fun x cur => convolveOneKernelRow inI x (j + ky) (fun i => wd i ky) kW cur)
          cnvW o) z).pix a b =
      if b = y ∧ ctrX ≤ a ∧ a < ctrX + cnvW then
        z.pix a b + ∑ ky ∈ Finset.range n, ∑ i ∈ Finset.range kW,
          (if wd i ky = 0 then 0 else inI.pix ((a - ctrX) + i) (j + ky) * wd i ky)
      else z.pix a b := by
  induction n generalizing a b with
  | zero =>
    simp only [List.range_zero, List.foldl_nil, Finset.range_zero, Finset.sum_empty, add_zero]
    split <;> rfl
  | succ n ih =>
    rw [List.range_succ, List.foldl_append, List.foldl_cons, List.foldl_nil, mapRow_pix]
    by_cases hin : b = y ∧ ctrX ≤ a ∧ a < ctrX + cnvW
    · rw [if_pos hin, if_pos hin, ih a b, if_pos hin, convolveOneKernelRow,
        Finset.sum_range_succ]
      ring
    · rw [if_neg hin, if_neg hin, ih a b, if_neg hin]

theorem genericInvariantRow_pix (inI : Image) (wd : ℕ → ℕ → ℚ)
    (kW kH ctrX width cnvW j y : ℕ) (out : Image) (a b : ℕ) :
    (genericInvariantRow inI wd kW kH ctrX width cnvW j y out).pix a b =
      if b = y ∧ ctrX ≤ a ∧ a < ctrX + cnvW then
        (if a < ctrX + (width - ctrX) then 0 else out.pix a b)
          + ∑ ky ∈ Finset.range kH, ∑ i ∈ Finset.range kW,
              (if wd i ky = 0 then 0 else inI.pix ((a - ctrX) + i) (j + ky) * wd i ky)
      else if b = y ∧ ctrX ≤ a ∧ a < ctrX + (width - ctrX) then 0
      else out.pix a b := by
  rw [genericInvariantRow, genericInvariantAccum_pix]
  by_cases hin : b = y ∧ ctrX ≤ a ∧ a < ctrX + cnvW
  · rw [if_pos hin, if_pos hin, mapRow_pix]
    by_cases hz : a < ctrX + (width - ctrX)
    · rw [if_pos (by omega : b = y ∧ ctrX ≤ a ∧ a < ctrX + (width - ctrX)), if_pos hz]
    · rw [if_neg (by omega : ¬ (b = y ∧ ctrX ≤ a ∧ a < ctrX + (width - ctrX))), if_neg hz]
  · rw [if_neg hin, if_neg hin, mapRow_pix]

theorem genericInvariantBody_pix (inI : Image) (wd : ℕ → ℕ → ℚ)
    (kW kH ctrX ctrY width cnvW cnvH : ℕ) (out : Image) (a b : ℕ) :
    (genericInvariantBody inI wd kW kH ctrX ctrY width cnvW cnvH out).pix a b =
      if ctrY ≤ b ∧ b < ctrY + cnvH ∧ ctrX ≤ a ∧ a < ctrX + cnvW then
        (if a < ctrX + (width - ctrX) then 0 else out.pix a b)
          + ∑ ky ∈ Finset.range kH, ∑ i ∈ Finset.range kW,
              (if wd i ky = 0 then 0 else inI.pix ((a - ctrX) + i) ((b - ctrY) + ky) * wd i ky)
      else if ctrY ≤ b ∧ b < ctrY + cnvH ∧ ctrX ≤ a ∧ a < ctrX + (width - ctrX) then 0
      else out.pix a b := by
  induction cnvH generalizing a b with
  | zero =>
    rw [if_neg (by omega), if_neg (by omega)]
    rfl
  | succ n ih =>
    rw [genericInvariantBody, List.range_succ, List.foldl_append, List.foldl_cons,
      List.foldl_nil]
    rw [show ∀ o, (List.range n).foldl
        (fun o j => genericInvariantRow inI wd kW kH ctrX width cnvW j (ctrY + j) o) o
        = genericInvariantBody inI wd kW kH ctrX ctrY width cnvW n o from fun o => rfl]
    rw [genericInvariantRow_pix]
    by_cases hrow : b = ctrY + n
    · subst hrow
      have hnotpr : ¬ (ctrY ≤ ctrY + n ∧ ctrY + n < ctrY + n ∧ ctrX ≤ a ∧ a < ctrX + cnvW) := by
        omega
      have hnotpz : ¬ (ctrY ≤ ctrY + n ∧ ctrY + n < ctrY + n ∧ ctrX ≤ a ∧ a < ctrX + (width - ctrX)) := by
        omega
      by_cases hin : ctrX ≤ a ∧ a < ctrX + cnvW
      · rw [if_pos (by omega : ctrY + n = ctrY + n ∧ ctrX ≤ a ∧ a < ctrX + cnvW)]
        rw [ih, if_neg hnotpr, if_neg hnotpz,
          if_pos (by omega : ctrY ≤ ctrY + n ∧ ctrY + n < ctrY + (n + 1) ∧ ctrX ≤ a ∧ a < ctrX + cnvW)]
        simp only [Nat.add_sub_cancel_left]
      · rw [if_neg (by omega : ¬ (ctrY + n = ctrY + n ∧ ctrX ≤ a ∧ a < ctrX + cnvW))]
        by_cases hz : ctrX ≤ a ∧ a < ctrX + (width - ctrX)
        · rw [if_pos (by omega : ctrY + n = ctrY + n ∧ ctrX ≤ a ∧ a < ctrX + (width - ctrX)),
            if_neg (by omega : ¬ (ctrY ≤ ctrY + n ∧ ctrY + n < ctrY + (n + 1) ∧ ctrX ≤ a ∧ a < ctrX + cnvW)),
            if_pos (by omega : ctrY ≤ ctrY + n ∧ ctrY + n < ctrY + (n + 1) ∧ ctrX ≤ a ∧ a < ctrX + (width - ctrX))]
        · rw [if_neg (by omega : ¬ (ctrY + n = ctrY + n ∧ ctrX ≤ a ∧ a < ctrX + (width - ctrX))),
            ih, if_neg hnotpr, if_neg hnotpz,
            if_neg (by omega : ¬ (ctrY ≤ ctrY + n ∧ ctrY + n < ctrY + (n + 1) ∧ ctrX ≤ a ∧ a < ctrX + cnvW)),
            if_neg (by omega : ¬ (ctrY ≤ ctrY + n ∧ ctrY + n < ctrY + (n + 1) ∧ ctrX ≤ a ∧ a < ctrX + (width - ctrX)))]
    · rw [if_neg (by omega : ¬ (b = ctrY + n ∧ ctrX ≤ a ∧ a < ctrX + cnvW)),
        if_neg (by omega : ¬ (b = ctrY + n ∧ ctrX ≤ a ∧ a < ctrX + (width - ctrX))), ih]
      by_cases h1 : ctrY ≤ b ∧ b < ctrY + n ∧ ctrX ≤ a ∧ a < ctrX + cnvW
      · rw [if_pos h1, if_pos (by omega : ctrY ≤ b ∧ b < ctrY + (n + 1) ∧ ctrX ≤ a ∧ a < ctrX + cnvW)]
      · rw [if_neg h1, if_neg (by omega : ¬ (ctrY ≤ b ∧ b < ctrY + (n + 1) ∧ ctrX ≤ a ∧ a < ctrX + cnvW))]
        by_cases h2 : ctrY ≤ b ∧ b < ctrY + n ∧ ctrX ≤ a ∧ a < ctrX + (width - ctrX)
        · rw [if_pos h2, if_pos (by omega : ctrY ≤ b ∧ b < ctrY + (n + 1) ∧ ctrX ≤ a ∧ a < ctrX + (width - ctrX))]
        · rw [if_neg h2, if_neg (by omega : ¬ (ctrY ≤ b ∧ b < ctrY + (n + 1) ∧ ctrX ≤ a ∧ a < ctrX + (width - ctrX)))]

theorem skip_sum_eq_conv (inI : Image) (wd : ℕ → ℕ → ℚ) (x0 y0 kW kH : ℕ) :
    ∑ ky ∈ Finset.range kH, ∑ i ∈ Finset.range kW,
        (if wd i ky = 0 then 0 else inI.pix (x0 + i) (y0 + ky) * wd i ky)
      = convolveAtAPoint inI x0 y0 wd kW kH := by
  rw [convolveAtAPoint]
  exact Finset.sum_congr rfl fun ky _ => sum_if_zero_weight _ _ _

/-- The strip of pixels zeroed by the spatially-invariant generic path: the
rows of the valid region, from cnvStartX to the end of each row. -/
def zeroedStrip (inW inH kW kH ctrX ctrY : ℕ) (a b : ℕ) : Prop :=
  ctrY ≤ b ∧ b < ctrY + (inH + 1 - kH) ∧ ctrX ≤ a ∧ a < inW

instance (inW inH kW kH ctrX ctrY a b : ℕ) :
    Decidable (zeroedStrip inW inH kW kH ctrX ctrY a b) := by
  unfold zeroedStrip
  infer_instance

theorem regionOf_contains (inW inH kW kH ctrX ctrY a b : ℕ) :
    (regionOf inW inH kW kH ctrX ctrY).contains a b ↔
      ctrX ≤ a ∧ a < ctrX + (inW + 1 - kW) ∧ ctrY ≤ b ∧ b < ctrY + (inH + 1 - kH) :=
  Iff.rfl

theorem zeroedStrip_iff (inW inH kW kH ctrX ctrY a b : ℕ) :
    zeroedStrip inW inH kW kH ctrX ctrY a b ↔
      ctrY ≤ b ∧ b < ctrY + (inH + 1 - kH) ∧ ctrX ≤ a ∧ a < inW :=
  Iff.rfl

/-- C1, amended.  Given equal-dimension output and input images and a kernel
no larger than the input with its anchor inside its bounds, the generic
basicConvolve writes the convolution result to exactly the valid region
pixels; outside that region, pixels keep their prior value in the
spatially-varying branch, but the spatially-invariant branch additionally
zeroes the pixels of the valid rows from cnvStartX to the end of the row
(its row-clearing loop runs to row_end rather than to cnvEndX), so border
pixels to the right of the valid region in valid rows are set to zero
rather than left untouched. -/
theorem claim1_basicConvolve_region_and_border
    (out inI : Image) (kW kH ctrX ctrY : ℕ) (sv : Bool) (w : ℚ → ℚ → ℕ → ℕ → ℚ)
    (dn : Bool)
    (hw : out.width = inI.width) (hh : out.height = inI.height)
    (hkw : kW ≤ inI.width) (hkh : kH ≤ inI.height)
    (hcx : ctrX < kW) (hcy : ctrY < kH) (a b : ℕ) :
    (runConv out (basicConvolve out inI (Kernel.generic kW kH ctrX ctrY sv w) dn)).pix a b =
      if (regionOf inI.width inI.height kW kH ctrX ctrY).contains a b then
        (if sv then genericVaryingValue inI w dn kW kH ctrX ctrY (a - ctrX) (b - ctrY)
         else convolveAtAPoint inI (a - ctrX) (b - ctrY) (invariantWeights w dn kW kH) kW kH)
      else if sv = false ∧ zeroedStrip inI.width inI.height kW kH ctrX ctrY a b then 0
      else out.pix a b := by
  rw [basicConvolve, basicConvolveGeneric,
    if_neg (not_not_intro ⟨hw, hh⟩), if_neg (by omega : ¬ (inI.width < kW ∨ inI.height < kH))]
  simp only [regionOf_contains, zeroedStrip_iff]
  cases sv with
  | false =>
    rw [if_neg (by simp : ¬ (false = true))]
    rw [runConv, genericInvariantBody_pix]
    by_cases hin : ctrX ≤ a ∧ a < ctrX + (inI.width + 1 - kW)
        ∧ ctrY ≤ b ∧ b < ctrY + (inI.height + 1 - kH)
    · obtain ⟨h1, h2, h3, h4⟩ := hin
      rw [if_pos ⟨h3, h4, h1, h2⟩,
        if_pos (by omega : a < ctrX + (inI.width - ctrX)),
        if_pos ⟨h1, h2, h3, h4⟩,
        if_neg (by simp : ¬ (false = true)), zero_add, skip_sum_eq_conv]
    · rw [if_neg (fun hc => hin ⟨hc.2.2.1, hc.2.2.2, hc.1, hc.2.1⟩), if_neg hin]
      by_cases hz : ctrY ≤ b ∧ b < ctrY + (inI.height + 1 - kH) ∧ ctrX ≤ a ∧ a < inI.width
      · rw [if_pos (by omega :
            ctrY ≤ b ∧ b < ctrY + (inI.height + 1 - kH) ∧ ctrX ≤ a ∧ a < ctrX + (inI.width - ctrX)),
          if_pos ⟨rfl, hz⟩]
      · rw [if_neg (by omega :
            ¬ (ctrY ≤ b ∧ b < ctrY + (inI.height + 1 - kH) ∧ ctrX ≤ a ∧ a < ctrX + (inI.width - ctrX))),
          if_neg (fun hcon => hz hcon.2)]
  | true =>
    rw [if_pos rfl, runConv, mapRegion_pix]
    by_cases hin : ctrX ≤ a ∧ a < ctrX + (inI.width + 1 - kW)
        ∧ ctrY ≤ b ∧ b < ctrY + (inI.height + 1 - kH)
    · rw [if_pos hin, if_pos hin, if_pos rfl]
    · rw [if_neg hin, if_neg hin,
        if_neg (by simp : ¬ (true = false ∧ ctrY ≤ b ∧ b < ctrY + (inI.height + 1 - kH) ∧ ctrX ≤ a ∧ a < inI.width))]

/-- Concrete images for the C1 and C2 counterexamples. -/
def exC1out : Image := ⟨3, 3, fun _ _ => 7⟩

def exC1in : Image := ⟨3, 3, fun _ _ => 5⟩

/-- C1, counterexample to the claim as stated: with a 3 x 3 input, a 2 x 1
spatially-invariant kernel anchored at (0, 0) and an output image holding 7
everywhere, the border pixel (2, 0) lies outside the written region but is
set to 0 by basicConvolve instead of keeping its value 7. -/
theorem claim1_counterexample :
    ¬ (regionOf 3 3 2 1 0 0).contains 2 0
    ∧ Except.map (fun r : Image => r.pix 2 0)
        (basicConvolve exC1out exC1in (Kernel.generic 2 1 0 0 false (fun _ _ _ _ => 1)) false)
      = Except.ok 0
    ∧ exC1out.pix 2 0 = 7 := by
  refine ⟨by decide, ?_, rfl⟩
  have h : basicConvolve exC1out exC1in (Kernel.generic 2 1 0 0 false (fun _ _ _ _ => 1)) false
      = Except.ok (genericInvariantBody exC1in
          (invariantWeights (fun _ _ _ _ => 1) false 2 1) 2 1 0 0 3 2 3 exC1out) := by
    rw [basicConvolve, basicConvolveGeneric]
    norm_num [exC1out, exC1in]
  rw [h, Except.map, genericInvariantBody_pix]
  norm_num

/-- C1, witness for the amended theorem at a concrete instance. -/
theorem claim1_witness :
    exC1out.width = exC1in.width ∧ 2 ≤ exC1in.width ∧ 0 < 2
    ∧ (runConv exC1out
        (basicConvolve exC1out exC1in (Kernel.generic 2 1 0 0 false (fun _ _ _ _ => 1)) false)).pix 1 1 =
      if (regionOf exC1in.width exC1in.height 2 1 0 0).contains 1 1 then
        (if false then genericVaryingValue exC1in (fun _ _ _ _ => 1) false 2 1 0 0 (1 - 0) (1 - 0)
         else convolveAtAPoint exC1in (1 - 0) (1 - 0)
                (invariantWeights (fun _ _ _ _ => 1) false 2 1) 2 1)
      else if false = false ∧ zeroedStrip exC1in.width exC1in.height 2 1 0 0 1 1 then 0
      else exC1out.pix 1 1 :=
  ⟨rfl, by norm_num [exC1in], by norm_num,
    claim1_basicConvolve_region_and_border exC1out exC1in 2 1 0 0 false
      (fun _ _ _ _ => 1) false rfl rfl (by norm_num [exC1in]) (by norm_num [exC1in])
      (by norm_num) (by norm_num) 1 1⟩

/-- A linear-combination kernel: fixed basis kernels paired with their
spatially-varying scalar coefficient functions, plus the overall dimensions
and anchor shared by all basis kernels. -/
structure LinearCombinationKernel where
  kW : ℕ
  kH : ℕ
  lctrX : ℕ
  lctrY : ℕ
  sv : Bool
  bases : List (Kernel × (ℚ → ℚ → ℚ))

/-- The dense weight image of the combined kernel at a position: the
coefficient-weighted sum of the basis weight images. -/
def LinearCombinationKernel.combinedWeight (k : LinearCombinationKernel) :
    ℚ → ℚ → ℕ → ℕ → ℚ :=
  fun a b i j => (k.bases.map (fun p => p.2 a b * p.1.denseWeight a b i j)).sum

/-- The combined kernel viewed as a generic dense kernel: this is how the
dispatch of basicConvolve treats a LinearCombinationKernel (both dynamic
casts fail and the generic path consumes its computeImage capability). -/
def LinearCombinationKernel.toGeneric (k : LinearCombinationKernel) : Kernel :=
  Kernel.generic k.kW k.kH k.lctrX k.lctrY k.sv k.combinedWeight

/-- The basis loop of convolveLinear: convolve the input with each basis
kernel into the reused working image, then accumulate coefficient(position)
times the basis-convolved pixel into the output over the valid region.  The
state is (working basis image, output image). -/
def convolveLinearLoop (inI : Image) (ctrX ctrY cnvW cnvH : ℕ) :
    List (Kernel × (ℚ → ℚ → ℚ)) → Image × Image → Except String (Image × Image)
  | [], st => Except.ok st
  | p :: rest, st => do
      let basisImage ← basicConvolve st.1 inI p.1 false
      convolveLinearLoop inI ctrX ctrY cnvW cnvH rest
        (basisImage,
         mapRegion ctrX ctrY cnvW cnvH
           (fun i j cur =>
             cur + basisImage.pix (ctrX + i) (ctrY + j)
                 * p.2 (indexToPosition (ctrX + i)) (indexToPosition (ctrY + j))) st.2)

/-- convolveLinear of ConvolveImage.cc: for a non-spatially-varying kernel
delegate to the ordinary un-normalized convolve; otherwise check the
preconditions, zero the valid region, run the basis loop and copy the
border. -/
def convolveLinear (out inI : Image) (k : LinearCombinationKernel) (edgeBit : ℤ) :
    Except String Image :=
  if k.sv = false then convolve out inI k.toGeneric false edgeBit
  else if ¬ (out.width = inI.width ∧ out.height = inI.height) then
    Except.error "convolvedImage not the same size as inImage"
  else if inI.width < k.kW ∨ inI.height < k.kH then
    Except.error "inImage smaller than kernel in columns and/or rows"
  else
    let cnvW := inI.width + 1 - k.kW
    let cnvH := inI.height + 1 - k.kH
    let zeroed := mapRegion k.lctrX k.lctrY cnvW cnvH (fun _ _ _ => 0) out
    Except.map (fun st : Image × Image => copyBorder st.2 inI k.kW k.kH k.lctrX k.lctrY)
      (convolveLinearLoop inI k.lctrX k.lctrY cnvW cnvH k.bases
        (zeroImage inI.width inI.height, zeroed))

/-- Pointwise sum of two kernel-sized weight images. -/
def kadd (a b : ℕ → ℕ → ℚ) : ℕ → ℕ → ℚ := fun i j => a i j + b i j

/-- Modelled from the spec: afwMath::scaledPlus (outside src/) writes
c1 * imA + c2 * imB pixelwise. -/
def scaledPlus (c1 : ℚ) (imA : ℕ → ℕ → ℚ) (c2 : ℚ) (imB : ℕ → ℕ → ℚ) :
    ℕ → ℕ → ℚ :=
  fun i j => c1 * imA i j + c2 * imB i j

/-- Modelled from the spec: a KernelImagesForRegion (class outside src/)
holds one sub-region of the valid output area together with the kernel
weight images already evaluated at its four corners; the top and right
corner positions lie one beyond the box boundary, per the comment in
convolveRegionWithInterpolation. -/
structure KernelImagesForRegion where
  kW : ℕ
  kH : ℕ
  ctrX : ℕ
  ctrY : ℕ
  x0 : ℕ
  y0 : ℕ
  w : ℕ
  h : ℕ
  doNormalize : Bool
  bl : ℕ → ℕ → ℚ
  br : ℕ → ℕ → ℚ
  tl : ℕ → ℕ → ℚ
  tr : ℕ → ℕ → ℚ

/-- Inner column loop of convolveRegionWithInterpolation: write the pixel at
(x, y) from the working kernel image, then (except after the last column)
advance the working kernel image by the horizontal delta.  The remaining
iteration count rem mirrors the break-controlled source loop, which always
writes at least one pixel. -/
def convInner (inI : Image) (delta : ℕ → ℕ → ℚ) (kW kH : ℕ) :
    ℕ → ℕ → ℕ → ℕ → ℕ → (ℕ → ℕ → ℚ) → Image → Image × (ℕ → ℕ → ℚ)
  | xin, yin, x, y, 0, k, o =>
      (o.set x y (convolveAtAPoint inI xin yin k kW kH), k)
  | xin, yin, x, y, rem + 1, k, o =>
      convInner inI delta kW kH (xin + 1) yin (x + 1) y rem (kadd k delta)
        (o.set x y (convolveAtAPoint inI xin yin k kW kH))

/-- Row loop of convolveRegionWithInterpolation: each row recomputes the
horizontal delta from the current left and right edge images, runs the
column loop starting from the left edge image, and (except after the last
row) advances the edge images by their vertical deltas. -/
def convRows (inI : Image) (ldelta rdelta : ℕ → ℕ → ℚ) (kW kH gw : ℕ) (xfrac : ℚ) :
    ℕ → ℕ → ℕ → ℕ → ℕ → (ℕ → ℕ → ℚ) → (ℕ → ℕ → ℚ) → Image → Image
  | xin, yin, x0, y, 0, left, right, o =>
      (convInner inI (scaledPlus xfrac right (-xfrac) left) kW kH
        xin yin x0 y (gw - 1) left o).1
  | xin, yin, x0, y, rem + 1, left, right, o =>
      convRows inI ldelta rdelta kW kH gw xfrac xin (yin + 1) x0 (y + 1) rem
        (kadd left ldelta) (kadd right rdelta)
        (convInner inI (scaledPlus xfrac right (-xfrac) left) kW kH
          xin yin x0 y (gw - 1) left o).1

/-- convolveRegionWithInterpolation of ConvolveWithInterpolation.cc: start
from the bottom-left corner image, derive the left and right edge vertical
deltas scaled by 1/height, and run the row loop over the region, reading the
input neighborhood from the grown box whose minimum is the region minimum
shifted by the kernel anchor. -/
def convolveRegionWithInterpolation (out inI : Image) (r : KernelImagesForRegion) :
    Image :=
  let xfrac : ℚ := 1 / (r.w : ℚ)
  let yfrac : ℚ := 1 / (r.h : ℚ)
  let ldelta := scaledPlus yfrac r.tl (-yfrac) r.bl
  let rdelta := scaledPlus yfrac r.tr (-yfrac) r.br
  convRows inI ldelta rdelta r.kW r.kH r.w xfrac
    (r.x0 - r.ctrX) (r.y0 - r.ctrY) r.x0 r.y0 (r.h - 1) r.bl r.br out

/-- Modelled from the spec: the even grid partition of the valid area used
by RowOfKernelImagesForRegion (outside src/): column ix of nx spans indices
[total*ix/nx, total*(ix+1)/nx). -/
def subBegin (total parts idx : ℕ) : ℕ := total * idx / parts

def subLength (total parts idx : ℕ) : ℕ :=
  subBegin total parts (idx + 1) - subBegin total parts idx

/-- The recognized convolution options. -/
structure ConvolutionControl where
  doNormalize : Bool
  maxInterpolationDistance : ℕ

/-- Modelled from the spec: the KernelImagesForRegion for one grid
sub-region, with the four corner kernel images evaluated exactly at its
corner positions.  The doNormalize flag is stored (the source forwards it
to the region constructor) but the interpolated path is documented as not
normalizing, so it does not enter the corner evaluations. -/
def mkRegion (k : Kernel) (dn : Bool) (gx0 gy0 gW gH nx ny ix iy : ℕ) :
    KernelImagesForRegion :=
  let x0 := gx0 + subBegin gW nx ix
  let y0 := gy0 + subBegin gH ny iy
  let w := subLength gW nx ix
  let h := subLength gH ny iy
  ⟨k.width, k.height, k.ctrX, k.ctrY, x0, y0, w, h, dn,
   k.denseWeight (indexToPosition x0) (indexToPosition y0),
   k.denseWeight (indexToPosition (x0 + w)) (indexToPosition y0),
   k.denseWeight (indexToPosition x0) (indexToPosition (y0 + h)),
   k.denseWeight (indexToPosition (x0 + w)) (indexToPosition (y0 + h))⟩

/-- convolveWithInterpolation of ConvolveWithInterpolation.cc: dimension
check, then the valid area is divided into an nx x ny grid with
nx = 1 + goodWidth / maxInterpolationDistance (ny analogous) and each
sub-region is convolved by interpolation, row of regions by row. -/
def convolveWithInterpolation (out inI : Image) (k : Kernel)
    (ctl : ConvolutionControl) : Except String Image :=
  if ¬ (out.width = inI.width ∧ out.height = inI.height) then
    Except.error "outImage dimensions != inImage dimensions"
  else
    let gW := out.width + 1 - k.width
    let gH := out.height + 1 - k.height
    let nx := 1 + gW / ctl.maxInterpolationDistance
    let ny := 1 + gH / ctl.maxInterpolationDistance
    Except.ok ((List.range ny).foldl (fun o iy =>
      (List.range nx).foldl (fun o2 ix =>
        convolveRegionWithInterpolation o2 inI
          (mkRegion k ctl.doNormalize k.ctrX k.ctrY gW gH nx ny ix iy)) o) out)

/-- One pixel of a masked image: image value, mask plane, variance. -/
structure MaskedPixel where
  img : ℚ
  msk : ℕ
  var : ℚ
deriving DecidableEq

/-- A masked image with integer pixel indexing (a warped source position may
fall anywhere relative to the image origin). -/
structure MaskedImage where
  width : ℕ
  height : ℕ
  pix : ℤ → ℤ → MaskedPixel

def MaskedImage.set (m : MaskedImage) (x y : ℤ) (p : MaskedPixel) : MaskedImage :=
  ⟨m.width, m.height, fun a b => if a = x ∧ b = y then p else m.pix a b⟩

theorem maskedImage_set_pix (m : MaskedImage) (x y a b : ℤ) (p : MaskedPixel) :
    (m.set x y p).pix a b = if a = x ∧ b = y then p else m.pix a b := rfl

/-- An opaque bidirectional coordinate transform together with its local
pixel-area capability. -/
structure Wcs where
  xyToRaDec : ℚ × ℚ → ℚ × ℚ
  raDecToXY : ℚ × ℚ → ℚ × ℚ
  pixArea : ℚ × ℚ → ℚ

/-- A separable warping kernel: two 1-D functions evaluated at the kernel
indices, parameterized by the kernel parameters (the fractional source
position, when the caller sets it). -/
structure SeparableWarpKernel where
  kW : ℕ
  kH : ℕ
  ctrX : ℕ
  ctrY : ℕ
  params : ℚ × ℚ
  fx : ℚ × ℚ → ℕ → ℚ
  fy : ℚ × ℚ → ℕ → ℚ

/-- Modelled from the spec: positionToIndex (outside src/) splits a
continuous position into an integer index and a fractional remainder in
[0, 1). -/
def positionToIndex (pos : ℚ) : ℤ × ℚ := (⌊pos⌋, pos - ⌊pos⌋)

/-- Modelled from the spec: the separable Point Convolution Primitive on a
masked image under the afw pixel arithmetic: values are weighted sums,
variances accumulate with squared weights, masks are OR-ed over the
footprint. -/
def convolveAtAPointSepMasked (src : MaskedImage) (x0 y0 : ℤ) (kx ky : ℕ → ℚ)
    (kW kH : ℕ) : MaskedPixel :=
  ⟨∑ j ∈ Finset.range kH, ky j *
      ∑ i ∈ Finset.range kW, kx i * (src.pix (x0 + i) (y0 + j)).img,
   (List.range kH).foldl (fun m j =>
     (List.range kW).foldl (fun m2 i => m2 ||| (src.pix (x0 + i) (y0 + j)).msk) m) 0,
   ∑ j ∈ Finset.range kH, ky j * ky j *
      ∑ i ∈ Finset.range kW, kx i * kx i * (src.pix (x0 + i) (y0 + j)).var⟩

/-- The per-destination-pixel edge condition of warpExposure: the integer
part of the mapped source position violates the kernel border margins. -/
def warpEdge (destWcs srcWcs : Wcs) (k : SeparableWarpKernel) (srcW srcH : ℕ)
    (dx dy : ℕ) : Prop :=
  let destPos := (indexToPosition dx, indexToPosition dy)
  let srcPos := srcWcs.raDecToXY (destWcs.xyToRaDec destPos)
  let six := (positionToIndex srcPos.1).1
  let siy := (positionToIndex srcPos.2).1
  six - (k.ctrX : ℤ) < 0 ∨ six + ((k.kW : ℤ) - (1 + k.ctrX)) ≥ srcW
    ∨ siy - (k.ctrY : ℤ) < 0 ∨ siy + ((k.kH : ℤ) - (1 + k.ctrY)) ≥ srcH

instance (destWcs srcWcs : Wcs) (k : SeparableWarpKernel) (srcW srcH dx dy : ℕ) :
    Decidable (warpEdge destWcs srcWcs k srcW srcH dx dy) := by
  unfold warpEdge
  infer_instance

/-- The non-edge destination pixel value of warpExposure: the separable
point convolution with the kernel vectors computed from the kernel
parameters as they currently stand (the source computes the fractional
source position but never feeds it to the kernel), scaled by
destArea / (srcArea * kSum), the variance by the square of that factor. -/
def warpedPixel (destWcs srcWcs : Wcs) (src : MaskedImage)
    (k : SeparableWarpKernel) (dx dy : ℕ) : MaskedPixel :=
  let destPos := (indexToPosition dx, indexToPosition dy)
  let srcPos := srcWcs.raDecToXY (destWcs.xyToRaDec destPos)
  let six := (positionToIndex srcPos.1).1
  let siy := (positionToIndex srcPos.2).1
  let kxv := k.fx k.params
  let kyv := k.fy k.params
  let kSum := (∑ i ∈ Finset.range k.kW, kxv i) * (∑ j ∈ Finset.range k.kH, kyv j)
  let cv := convolveAtAPointSepMasked src six siy kxv kyv k.kW k.kH
  let multFac := destWcs.pixArea destPos / (srcWcs.pixArea srcPos * kSum)
  ⟨cv.img * multFac, cv.msk, cv.var * (multFac * multFac)⟩

/-- warpExposure of warpExposure.cc: loop over every destination pixel,
mapping it through both transforms; border-violating pixels are set to the
edge pixel (zero value, zero variance, the EDGE mask) and skipped, all
others get the warped pixel value and are counted.  Returns the final
destination image and the count of valid pixels. -/
def warpRowStep (destWcs srcWcs : Wcs) (src : MaskedImage)
    (k : SeparableWarpKernel) (edgePixelMask : ℕ) (dy : ℕ) :
    MaskedImage × ℕ → ℕ → MaskedImage × ℕ :=
  fun st2 dx =>
    if warpEdge destWcs srcWcs k src.width src.height dx dy then
      (st2.1.set dx dy ⟨0, edgePixelMask, 0⟩, st2.2)
    else
      (st2.1.set dx dy (warpedPixel destWcs srcWcs src k dx dy), st2.2 + 1)

def warpExposure (dest : MaskedImage) (destWcs : Wcs) (src : MaskedImage)
    (srcWcs : Wcs) (k : SeparableWarpKernel) (edgePixelMask : ℕ) :
    MaskedImage × ℕ :=
  (List.range dest.height).foldl (fun st dy =>
    (List.range dest.width).foldl (warpRowStep destWcs srcWcs src k edgePixelMask dy) st)
    (dest, 0)

/-- BilinearFunction1 of warpExposure.cc: value 1 - p at argument 0 and p at
argument 1 (any other argument throws in the source; a width-2 warping
kernel evaluates it only at the kernel indices 0 and 1). -/
def bilinearFunction1 (p : ℚ) (x : ℕ) : ℚ := if x = 0 then 1 - p else p

/-- The BilinearWarpingKernel: 2 x 2, anchored at (1, 1), with
BilinearFunction1 on each axis. -/
def bilinearWarpingKernel (params : ℚ × ℚ) : SeparableWarpKernel :=
  ⟨2, 2, 1, 1, params,
   fun pr i => bilinearFunction1 pr.1 i,
   fun pr j => bilinearFunction1 pr.2 j⟩

/-- If the precondition of any basicConvolve path is violated, the call
reports an error (and hence, per runConv, performs no write). -/
theorem basicConvolve_error (out inI : Image) (k : Kernel) (dn : Bool)
    (h : ¬ (out.width = inI.width ∧ out.height = inI.height)
      ∨ inI.width < k.width ∨ inI.height < k.height) :
    ∃ e, basicConvolve out inI k dn = Except.error e := by
  cases k with
  | delta kW kH cx cy px py =>
    rw [basicConvolve, basicConvolveDelta]
    by_cases hd : out.width = inI.width ∧ out.height = inI.height
    · exact ⟨_, by
        rw [if_neg (not_not_intro hd),
          if_pos (by simp only [Kernel.width, Kernel.height] at h; omega :
            out.width < kW ∨ out.height < kH)]⟩
    · exact ⟨_, by rw [if_pos hd]⟩
  | separable kW kH cx cy sv kx ky =>
    rw [basicConvolve, basicConvolveSep]
    by_cases hd : out.width = inI.width ∧ out.height = inI.height
    · exact ⟨_, by
        rw [if_neg (not_not_intro hd),
          if_pos (by simp only [Kernel.width, Kernel.height] at h; omega :
            inI.width < kW ∨ inI.height < kH)]⟩
    · exact ⟨_, by rw [if_pos hd]⟩
  | generic kW kH cx cy sv w =>
    rw [basicConvolve, basicConvolveGeneric]
    by_cases hd : out.width = inI.width ∧ out.height = inI.height
    · exact ⟨_, by
        rw [if_neg (not_not_intro hd),
          if_pos (by simp only [Kernel.width, Kernel.height] at h; omega :
            inI.width < kW ∨ inI.height < kH)]⟩
    · exact ⟨_, by rw [if_pos hd]⟩

/-- C10: whenever basicConvolve, convolveLinear or convolveWithInterpolation
raises a precondition exception (output dimensions unequal to the input
dimensions, or input smaller than the kernel), the call returns the error
without producing an output image, so the in-place output is left completely
unmodified: every precondition check is performed before any write. -/
theorem claim10_preconditions_before_writes
    (out inI : Image) (k : Kernel) (lck : LinearCombinationKernel)
    (ctl : ConvolutionControl) (dn : Bool) (edgeBit : ℤ) :
    ((¬ (out.width = inI.width ∧ out.height = inI.height)
        ∨ inI.width < k.width ∨ inI.height < k.height) →
      ∃ e, basicConvolve out inI k dn = Except.error e)
    ∧ ((¬ (out.width = inI.width ∧ out.height = inI.height)
        ∨ inI.width < lck.kW ∨ inI.height < lck.kH) →
      ∃ e, convolveLinear out inI lck edgeBit = Except.error e)
    ∧ (¬ (out.width = inI.width ∧ out.height = inI.height) →
      ∃ e, convolveWithInterpolation out inI k ctl = Except.error e)
    ∧ (∀ r : Except String Image, (∃ e, r = Except.error e) → runConv out r = out) := by
  refine ⟨fun h => basicConvolve_error out inI k dn h, fun h => ?_, fun h => ?_, ?_⟩
  · rw [convolveLinear]
    by_cases hsv : lck.sv = false
    · rw [if_pos hsv, convolve]
      obtain ⟨e, he⟩ := basicConvolve_error out inI lck.toGeneric false
        (by simpa only [LinearCombinationKernel.toGeneric, Kernel.width, Kernel.height] using h)
      rw [he]
      exact ⟨e, rfl⟩
    · rw [if_neg hsv]
      by_cases hd : out.width = inI.width ∧ out.height = inI.height
      · exact ⟨_, by
          rw [if_neg (not_not_intro hd),
            if_pos (by omega : inI.width < lck.kW ∨ inI.height < lck.kH)]⟩
      · exact ⟨_, by rw [if_pos hd]⟩
  · exact ⟨_, by rw [convolveWithInterpolation, if_pos h]⟩
  · rintro r ⟨e, rfl⟩
    rfl

/-- C10, witness: concrete mismatched images and kernels for which all three
calls report errors. -/
theorem claim10_witness :
    ((¬ ((zeroImage 2 2).width = (zeroImage 3 3).width
          ∧ (zeroImage 2 2).height = (zeroImage 3 3).height)
        ∨ (zeroImage 3 3).width < (Kernel.delta 5 5 0 0 0 0).width
        ∨ (zeroImage 3 3).height < (Kernel.delta 5 5 0 0 0 0).height)
      → ∃ e, basicConvolve (zeroImage 2 2) (zeroImage 3 3)
          (Kernel.delta 5 5 0 0 0 0) false = Except.error e)
    ∧ ((¬ ((zeroImage 2 2).width = (zeroImage 3 3).width
          ∧ (zeroImage 2 2).height = (zeroImage 3 3).height)
        ∨ (zeroImage 3 3).width < (LinearCombinationKernel.mk 5 5 0 0 true []).kW
        ∨ (zeroImage 3 3).height < (LinearCombinationKernel.mk 5 5 0 0 true []).kH)
      → ∃ e, convolveLinear (zeroImage 2 2) (zeroImage 3 3)
          (LinearCombinationKernel.mk 5 5 0 0 true []) 0 = Except.error e)
    ∧ (¬ ((zeroImage 2 2).width = (zeroImage 3 3).width
          ∧ (zeroImage 2 2).height = (zeroImage 3 3).height)
      → ∃ e, convolveWithInterpolation (zeroImage 2 2) (zeroImage 3 3)
          (Kernel.delta 5 5 0 0 0 0) (ConvolutionControl.mk false 10) = Except.error e)
    ∧ (∀ r : Except String Image, (∃ e, r = Except.error e)
      → runConv (zeroImage 2 2) r = zeroImage 2 2) :=
  claim10_preconditions_before_writes (zeroImage 2 2) (zeroImage 3 3)
    (Kernel.delta 5 5 0 0 0 0) (LinearCombinationKernel.mk 5 5 0 0 true [])
    (ConvolutionControl.mk false 10) false 0

/-- Region value of the generic path on a spatially-invariant kernel. -/
theorem basicConvolveGeneric_invariant_region (out inI : Image)
    (kW kH ctrX ctrY : ℕ) (w : ℚ → ℚ → ℕ → ℕ → ℚ) (dn : Bool)
    (hw : out.width = inI.width) (hh : out.height = inI.height)
    (hkw : kW ≤ inI.width) (hkh : kH ≤ inI.height) (hcx : ctrX < kW)
    (a b : ℕ) (hab : (regionOf inI.width inI.height kW kH ctrX ctrY).contains a b) :
    (runConv out (basicConvolve out inI (Kernel.generic kW kH ctrX ctrY false w) dn)).pix a b
      = convolveAtAPoint inI (a - ctrX) (b - ctrY) (invariantWeights w dn kW kH) kW kH := by
  obtain ⟨h1, h2, h3, h4⟩ := (regionOf_contains inI.width inI.height kW kH ctrX ctrY a b).mp hab
  rw [basicConvolve, basicConvolveGeneric,
    if_neg (not_not_intro ⟨hw, hh⟩),
    if_neg (by omega : ¬ (inI.width < kW ∨ inI.height < kH)),
    if_neg (by simp : ¬ (false = true)), runConv, genericInvariantBody_pix,
    if_pos ⟨h3, h4, h1, h2⟩, if_pos (by omega : a < ctrX + (inI.width - ctrX)),
    zero_add, skip_sum_eq_conv]

/-- Region value of the generic path on a spatially-varying kernel. -/
theorem basicConvolveGeneric_varying_region (out inI : Image)
    (kW kH ctrX ctrY : ℕ) (w : ℚ → ℚ → ℕ → ℕ → ℚ) (dn : Bool)
    (hw : out.width = inI.width) (hh : out.height = inI.height)
    (hkw : kW ≤ inI.width) (hkh : kH ≤ inI.height)
    (a b : ℕ) (hab : (regionOf inI.width inI.height kW kH ctrX ctrY).contains a b) :
    (runConv out (basicConvolve out inI (Kernel.generic kW kH ctrX ctrY true w) dn)).pix a b
      = genericVaryingValue inI w dn kW kH ctrX ctrY (a - ctrX) (b - ctrY) := by
  obtain ⟨h1, h2, h3, h4⟩ := (regionOf_contains inI.width inI.height kW kH ctrX ctrY a b).mp hab
  rw [basicConvolve, basicConvolveGeneric,
    if_neg (not_not_intro ⟨hw, hh⟩),
    if_neg (by omega : ¬ (inI.width < kW ∨ inI.height < kH)),
    if_pos rfl, runConv, mapRegion_pix, if_pos ⟨h1, h2, h3, h4⟩]

/-- Region value of the delta-function fast path. -/
theorem basicConvolveDelta_region (out inI : Image) (kW kH ctrX ctrY px py : ℕ)
    (dn : Bool)
    (hw : out.width = inI.width) (hh : out.height = inI.height)
    (hkw : kW ≤ inI.width) (hkh : kH ≤ inI.height)
    (a b : ℕ) (hab : (regionOf inI.width inI.height kW kH ctrX ctrY).contains a b) :
    (runConv out (basicConvolve out inI (Kernel.delta kW kH ctrX ctrY px py) dn)).pix a b
      = inI.pix (px + (a - ctrX)) (py + (b - ctrY)) := by
  obtain ⟨h1, h2, h3, h4⟩ := (regionOf_contains inI.width inI.height kW kH ctrX ctrY a b).mp hab
  rw [basicConvolve, basicConvolveDelta,
    if_neg (not_not_intro ⟨hw, hh⟩),
    if_neg (by omega : ¬ (out.width < kW ∨ out.height < kH)),
    runConv, mapRegion_pix, if_pos ⟨h1, h2, h3, h4⟩]

/-- Region value of the separable fast path on a spatially-invariant
kernel. -/
theorem basicConvolveSep_invariant_region (out inI : Image)
    (kW kH ctrX ctrY : ℕ) (kx ky : ℚ → ℚ → ℕ → ℚ) (dn : Bool)
    (hw : out.width = inI.width) (hh : out.height = inI.height)
    (hkw : kW ≤ inI.width) (hkh : kH ≤ inI.height)
    (a b : ℕ) (hab : (regionOf inI.width inI.height kW kH ctrX ctrY).contains a b) :
    (runConv out (basicConvolve out inI (Kernel.separable kW kH ctrX ctrY false kx ky) dn)).pix a b
      = convolveAtAPointSep inI (a - ctrX) (b - ctrY)
          (if dn then normalizeVec (kx (indexToPosition 0) (indexToPosition 0)) kW
           else kx (indexToPosition 0) (indexToPosition 0))
          (if dn then normalizeVec (ky (indexToPosition 0) (indexToPosition 0)) kH
           else ky (indexToPosition 0) (indexToPosition 0)) kW kH := by
  obtain ⟨h1, h2, h3, h4⟩ := (regionOf_contains inI.width inI.height kW kH ctrX ctrY a b).mp hab
  rw [basicConvolve, basicConvolveSep,
    if_neg (not_not_intro ⟨hw, hh⟩),
    if_neg (by omega : ¬ (inI.width < kW ∨ inI.height < kH)),
    if_neg (by simp : ¬ (false = true)), runConv, mapRegion_pix, if_pos ⟨h1, h2, h3, h4⟩]

/-- The dense point convolution against a delta weight image picks out one
input pixel. -/
theorem conv_delta_weight (inI : Image) (x0 y0 kW kH px py : ℕ)
    (hpx : px < kW) (hpy : py < kH) :
    convolveAtAPoint inI x0 y0 (fun i j => if i = px ∧ j = py then 1 else 0) kW kH
      = inI.pix (x0 + px) (y0 + py) := by
  rw [convolveAtAPoint]
  have h1 : ∀ j, ∑ i ∈ Finset.range kW,
      inI.pix (x0 + i) (y0 + j) * (if i = px ∧ j = py then (1 : ℚ) else 0)
      = if j = py then inI.pix (x0 + px) (y0 + j) else 0 := by
    intro j
    by_cases hj : j = py
    · subst hj
      rw [Finset.sum_eq_single px]
      · simp
      · intro i hi hne
        simp [hne]
      · intro hmem
        exact absurd (Finset.mem_range.mpr hpx) hmem
    · rw [if_neg hj]
      refine Finset.sum_eq_zero fun i hi => ?_
      simp [hj]
  simp only [h1]
  rw [Finset.sum_eq_single py]
  · simp
  · intro j hj hne
    simp [hne]
  · intro hmem
    exact absurd (Finset.mem_range.mpr hpy) hmem

/-- The kernel sum of a delta weight image is one. -/
theorem weightSum_delta (kW kH px py : ℕ) (hpx : px < kW) (hpy : py < kH) :
    weightSum (fun i j => if i = px ∧ j = py then (1 : ℚ) else 0) kW kH = 1 := by
  have h := conv_delta_weight ⟨kW, kH, fun _ _ => 1⟩ 0 0 kW kH px py hpx hpy
  simp only [convolveAtAPoint, one_mul] at h
  rw [weightSum]
  exact h

/-- The separable point convolution equals the dense point convolution
against the outer-product weight image. -/
theorem sepPoint_eq_densePoint (inI : Image) (x0 y0 : ℕ) (kx ky : ℕ → ℚ)
    (kW kH : ℕ) :
    convolveAtAPointSep inI x0 y0 kx ky kW kH
      = convolveAtAPoint inI x0 y0 (fun i j => kx i * ky j) kW kH := by
  rw [convolveAtAPointSep, convolveAtAPoint]
  refine Finset.sum_congr rfl fun j _ => ?_
  rw [Finset.mul_sum]
  refine Finset.sum_congr rfl fun i _ => ?_
  ring

/-- The kernel sum of an outer-product weight image is the product of the
vector sums. -/
theorem weightSum_outer (kx ky : ℕ → ℚ) (kW kH : ℕ) :
    weightSum (fun i j => kx i * ky j) kW kH
      = (∑ i ∈ Finset.range kW, kx i) * (∑ j ∈ Finset.range kH, ky j) := by
  rw [weightSum]
  calc ∑ j ∈ Finset.range kH, ∑ i ∈ Finset.range kW, kx i * ky j
      = ∑ j ∈ Finset.range kH, (∑ i ∈ Finset.range kW, kx i) * ky j :=
        Finset.sum_congr rfl fun j _ => (Finset.sum_mul _ _ _).symm
    _ = _ := (Finset.mul_sum _ _ _).symm

/-- Two pointwise-equal weight images give the same dense point
convolution. -/
theorem convolveAtAPoint_congr (inI : Image) (x0 y0 : ℕ) {w1 w2 : ℕ → ℕ → ℚ}
    (h : ∀ i j, w1 i j = w2 i j) (kW kH : ℕ) :
    convolveAtAPoint inI x0 y0 w1 kW kH = convolveAtAPoint inI x0 y0 w2 kW kH := by
  rw [convolveAtAPoint, convolveAtAPoint]
  exact Finset.sum_congr rfl fun j _ => Finset.sum_congr rfl fun i _ => by rw [h i j]

/-- C2, amended.  For a non-spatially-varying delta-function or separable
kernel, the specialized basicConvolve fast path produces the same value as
the generic dense-kernel path at every pixel of the computed (valid) region,
for the same output image, input image, kernel weights and doNormalize flag.
The full output images can differ on the border: the generic
spatially-invariant path zeroes the pixels right of the valid region in
valid rows, which the fast paths leave untouched. -/
theorem claim2_fastpaths_match_generic_on_region
    (out inI : Image) (kW kH cx cy px py : ℕ) (kx ky : ℚ → ℚ → ℕ → ℚ)
    (dn : Bool) (a b : ℕ)
    (hw : out.width = inI.width) (hh : out.height = inI.height)
    (hkw : kW ≤ inI.width) (hkh : kH ≤ inI.height)
    (hcx : cx < kW) (hcy : cy < kH) (hpx : px < kW) (hpy : py < kH)
    (hab : (regionOf inI.width inI.height kW kH cx cy).contains a b) :
    (runConv out (basicConvolve out inI (Kernel.delta kW kH cx cy px py) dn)).pix a b
      = (runConv out (basicConvolve out inI
          (Kernel.generic kW kH cx cy false ((Kernel.delta kW kH cx cy px py).denseWeight)) dn)).pix a b
    ∧ (runConv out (basicConvolve out inI (Kernel.separable kW kH cx cy false kx ky) dn)).pix a b
      = (runConv out (basicConvolve out inI
          (Kernel.generic kW kH cx cy false ((Kernel.separable kW kH cx cy false kx ky).denseWeight)) dn)).pix a b := by
  constructor
  · rw [basicConvolveDelta_region out inI kW kH cx cy px py dn hw hh hkw hkh a b hab,
      basicConvolveGeneric_invariant_region out inI kW kH cx cy _ dn hw hh hkw hkh hcx a b hab]
    rw [invariantWeights]
    simp only [Kernel.denseWeight]
    cases dn with
    | false =>
      rw [if_neg (by simp : ¬ (false = true)),
        conv_delta_weight inI (a - cx) (b - cy) kW kH px py hpx hpy,
        Nat.add_comm px (a - cx), Nat.add_comm py (b - cy)]
    | true =>
      rw [if_pos rfl,
        convolveAtAPoint_congr inI (a - cx) (b - cy)
          (fun i j => by
            rw [weightSum_delta kW kH px py hpx hpy, div_one]) kW kH,
        conv_delta_weight inI (a - cx) (b - cy) kW kH px py hpx hpy,
        Nat.add_comm px (a - cx), Nat.add_comm py (b - cy)]
  · rw [basicConvolveSep_invariant_region out inI kW kH cx cy kx ky dn hw hh hkw hkh a b hab,
      basicConvolveGeneric_invariant_region out inI kW kH cx cy _ dn hw hh hkw hkh hcx a b hab]
    rw [invariantWeights]
    simp only [Kernel.denseWeight]
    cases dn with
    | false =>
      rw [if_neg (by simp : ¬ (false = true)), if_neg (by simp : ¬ (false = true)),
        if_neg (by simp : ¬ (false = true)), sepPoint_eq_densePoint]
    | true =>
      rw [if_pos rfl, if_pos rfl, if_pos rfl, sepPoint_eq_densePoint]
      refine convolveAtAPoint_congr inI (a - cx) (b - cy) (fun i j => ?_) kW kH
      rw [normalizeVec, normalizeVec, weightSum_outer, div_mul_div_comm]

/-- C2, counterexample to the claim as stated: with a 3 x 3 input, an output
holding 7 everywhere and the 2 x 1 delta kernel with unit weight at (1, 0),
the delta fast path and the generic dense path produce different output
images: at the border pixel (2, 0) the fast path leaves 7 while the generic
path writes 0. -/
theorem claim2_counterexample :
    Except.map (fun r : Image => r.pix 2 0)
        (basicConvolve exC1out exC1in (Kernel.delta 2 1 0 0 1 0) false) = Except.ok 7
    ∧ Except.map (fun r : Image => r.pix 2 0)
        (basicConvolve exC1out exC1in
          (Kernel.generic 2 1 0 0 false ((Kernel.delta 2 1 0 0 1 0).denseWeight)) false)
      = Except.ok 0 := by
  constructor
  · have hd : basicConvolve exC1out exC1in (Kernel.delta 2 1 0 0 1 0) false
        = Except.ok (mapRegion 0 0 2 3 (fun i j _ => exC1in.pix (1 + i) (0 + j)) exC1out) := by
      rw [basicConvolve, basicConvolveDelta]
      norm_num [exC1out, exC1in]
    rw [hd, Except.map, mapRegion_pix]
    norm_num [exC1out]
  · have hg : basicConvolve exC1out exC1in
        (Kernel.generic 2 1 0 0 false ((Kernel.delta 2 1 0 0 1 0).denseWeight)) false
        = Except.ok (genericInvariantBody exC1in
            (invariantWeights ((Kernel.delta 2 1 0 0 1 0).denseWeight) false 2 1)
            2 1 0 0 3 2 3 exC1out) := by
      rw [basicConvolve, basicConvolveGeneric]
      norm_num [exC1out, exC1in]
    rw [hg, Except.map, genericInvariantBody_pix]
    norm_num

/-- C2, witness for the amended theorem at a concrete instance. -/
theorem claim2_witness :
    (regionOf exC1in.width exC1in.height 2 1 0 0).contains 1 1
    ∧ ((runConv exC1out (basicConvolve exC1out exC1in (Kernel.delta 2 1 0 0 1 0) false)).pix 1 1
        = (runConv exC1out (basicConvolve exC1out exC1in
            (Kernel.generic 2 1 0 0 false ((Kernel.delta 2 1 0 0 1 0).denseWeight)) false)).pix 1 1
      ∧ (runConv exC1out (basicConvolve exC1out exC1in
            (Kernel.separable 2 1 0 0 false (fun _ _ _ => 1) (fun _ _ _ => 1)) false)).pix 1 1
        = (runConv exC1out (basicConvolve exC1out exC1in
            (Kernel.generic 2 1 0 0 false
              ((Kernel.separable 2 1 0 0 false (fun _ _ _ => 1) (fun _ _ _ => 1)).denseWeight)) false)).pix 1 1) :=
  ⟨by decide,
   claim2_fastpaths_match_generic_on_region exC1out exC1in 2 1 0 0 1 0
     (fun _ _ _ => 1) (fun _ _ _ => 1) false 1 1 rfl rfl
     (by norm_num [exC1in]) (by norm_num [exC1in]) (by norm_num) (by norm_num)
     (by norm_num) (by norm_num) (by decide)⟩

/-- Well-formedness of a kernel: the unit weight of a delta-function kernel
lies inside the kernel bounds. -/
def Kernel.wf : Kernel → Prop
  | .delta kW kH _ _ px py => px < kW ∧ py < kH
  | .separable _ _ _ _ _ _ _ => True
  | .generic _ _ _ _ _ _ => True

/-- A kernel whose weight capability does not actually depend on the
position argument (the meaning of isSpatiallyVarying = false for the
underlying kernel classes). -/
def Kernel.positionIndependent (k : Kernel) : Prop :=
  ∀ p q r s : ℚ, ∀ i j : ℕ, k.denseWeight p q i j = k.denseWeight r s i j

theorem foldl_width_preserved {α : Type} (f : Image → α → Image)
    (hf : ∀ o x, (f o x).width = o.width) (l : List α) (o : Image) :
    (l.foldl f o).width = o.width := by
  induction l generalizing o with
  | nil => rfl
  | cons x xs ih => rw [List.foldl_cons, ih, hf]

theorem foldl_height_preserved {α : Type} (f : Image → α → Image)
    (hf : ∀ o x, (f o x).height = o.height) (l : List α) (o : Image) :
    (l.foldl f o).height = o.height := by
  induction l generalizing o with
  | nil => rfl
  | cons x xs ih => rw [List.foldl_cons, ih, hf]

theorem genericInvariantRow_width (inI : Image) (wd : ℕ → ℕ → ℚ)
    (kW kH ctrX width cnvW j y : ℕ) (out : Image) :
    (genericInvariantRow inI wd kW kH ctrX width cnvW j y out).width = out.width := by
  rw [genericInvariantRow, foldl_width_preserved _ (fun o x => mapRow_width _ _ _ _ o),
    mapRow_width]

theorem genericInvariantRow_height (inI : Image) (wd : ℕ → ℕ → ℚ)
    (kW kH ctrX width cnvW j y : ℕ) (out : Image) :
    (genericInvariantRow inI wd kW kH ctrX width cnvW j y out).height = out.height := by
  rw [genericInvariantRow, foldl_height_preserved _ (fun o x => mapRow_height _ _ _ _ o),
    mapRow_height]

theorem genericInvariantBody_width (inI : Image) (wd : ℕ → ℕ → ℚ)
    (kW kH ctrX ctrY width cnvW cnvH : ℕ) (out : Image) :
    (genericInvariantBody inI wd kW kH ctrX ctrY width cnvW cnvH out).width = out.width := by
  rw [genericInvariantBody]
  exact foldl_width_preserved _ (fun o x => genericInvariantRow_width _ _ _ _ _ _ _ _ _ o) _ _

theorem genericInvariantBody_height (inI : Image) (wd : ℕ → ℕ → ℚ)
    (kW kH ctrX ctrY width cnvW cnvH : ℕ) (out : Image) :
    (genericInvariantBody inI wd kW kH ctrX ctrY width cnvW cnvH out).height = out.height := by
  rw [genericInvariantBody]
  exact foldl_height_preserved _ (fun o x => genericInvariantRow_height _ _ _ _ _ _ _ _ _ o) _ _

/-- For a non-spatially-varying well-formed kernel of any shape whose
preconditions hold, basicConvolve succeeds, preserves the output dimensions,
and fills every valid-region pixel with the dense point convolution against
the kernel weight image (un-normalized case). -/
theorem basicConvolve_fixed_ok (out inI : Image) (k : Kernel)
    (hw : out.width = inI.width) (hh : out.height = inI.height)
    (hkw : k.width ≤ inI.width) (hkh : k.height ≤ inI.height)
    (hcx : k.ctrX < k.width) (hcy : k.ctrY < k.height)
    (hsv : k.isSpatiallyVarying = false) (hwf : k.wf) :
    ∃ res, basicConvolve out inI k false = Except.ok res
      ∧ res.width = out.width ∧ res.height = out.height
      ∧ ∀ a b : ℕ,
          (regionOf inI.width inI.height k.width k.height k.ctrX k.ctrY).contains a b →
          res.pix a b = convolveAtAPoint inI (a - k.ctrX) (b - k.ctrY)
            (k.denseWeight (indexToPosition 0) (indexToPosition 0)) k.width k.height := by
  cases k with
  | delta kW kH cx cy px py =>
    simp only [Kernel.width, Kernel.height, Kernel.ctrX, Kernel.ctrY, Kernel.wf] at *
    have heq : basicConvolve out inI (Kernel.delta kW kH cx cy px py) false
        = Except.ok (mapRegion cx cy (inI.width + 1 - kW) (inI.height + 1 - kH)
            (fun i j _ => inI.pix (px + i) (py + j)) out) := by
      rw [basicConvolve, basicConvolveDelta, if_neg (not_not_intro ⟨hw, hh⟩),
        if_neg (by omega : ¬ (out.width < kW ∨ out.height < kH))]
    refine ⟨_, heq, mapRegion_width _ _ _ _ _ _, mapRegion_height _ _ _ _ _ _, fun a b hab => ?_⟩
    have h2 : (mapRegion cx cy (inI.width + 1 - kW) (inI.height + 1 - kH)
          (fun i j _ => inI.pix (px + i) (py + j)) out).pix a b
        = (runConv out (basicConvolve out inI (Kernel.delta kW kH cx cy px py) false)).pix a b := by
      rw [heq]
      rfl
    rw [h2, basicConvolveDelta_region out inI kW kH cx cy px py false hw hh hkw hkh a b hab,
      Kernel.denseWeight, conv_delta_weight inI (a - cx) (b - cy) kW kH px py hwf.1 hwf.2,
      Nat.add_comm (a - cx) px, Nat.add_comm (b - cy) py]
  | separable kW kH cx cy sv kx ky =>
    simp only [Kernel.isSpatiallyVarying] at hsv
    subst hsv
    simp only [Kernel.width, Kernel.height, Kernel.ctrX, Kernel.ctrY] at *
    have heq : basicConvolve out inI (Kernel.separable kW kH cx cy false kx ky) false
        = Except.ok (mapRegion cx cy (inI.width + 1 - kW) (inI.height + 1 - kH)
            (fun i j _ => convolveAtAPointSep inI i j
              (kx (indexToPosition 0) (indexToPosition 0))
              (ky (indexToPosition 0) (indexToPosition 0)) kW kH) out) := by
      rw [basicConvolve, basicConvolveSep, if_neg (not_not_intro ⟨hw, hh⟩),
        if_neg (by omega : ¬ (inI.width < kW ∨ inI.height < kH)),
        if_neg (by simp : ¬ (false = true))]
      simp
    refine ⟨_, heq, mapRegion_width _ _ _ _ _ _, mapRegion_height _ _ _ _ _ _, fun a b hab => ?_⟩
    obtain ⟨h1, h2, h3, h4⟩ := (regionOf_contains inI.width inI.height kW kH cx cy a b).mp hab
    rw [mapRegion_pix, if_pos ⟨h1, h2, h3, h4⟩, sepPoint_eq_densePoint, Kernel.denseWeight]
  | generic kW kH cx cy sv w =>
    simp only [Kernel.isSpatiallyVarying] at hsv
    subst hsv
    simp only [Kernel.width, Kernel.height, Kernel.ctrX, Kernel.ctrY] at *
    have heq : basicConvolve out inI (Kernel.generic kW kH cx cy false w) false
        = Except.ok (genericInvariantBody inI (invariantWeights w false kW kH)
            kW kH cx cy inI.width (inI.width + 1 - kW) (inI.height + 1 - kH) out) := by
      rw [basicConvolve, basicConvolveGeneric, if_neg (not_not_intro ⟨hw, hh⟩),
        if_neg (by omega : ¬ (inI.width < kW ∨ inI.height < kH)),
        if_neg (by simp : ¬ (false = true))]
    refine ⟨_, heq, genericInvariantBody_width _ _ _ _ _ _ _ _ _ _,
      genericInvariantBody_height _ _ _ _ _ _ _ _ _ _, fun a b hab => ?_⟩
    have h2 : (genericInvariantBody inI (invariantWeights w false kW kH)
          kW kH cx cy inI.width (inI.width + 1 - kW) (inI.height + 1 - kH) out).pix a b
        = (runConv out (basicConvolve out inI (Kernel.generic kW kH cx cy false w) false)).pix a b := by
      rw [heq]
      rfl
    rw [h2, basicConvolveGeneric_invariant_region out inI kW kH cx cy w false hw hh hkw hkh hcx a b hab]
    rw [invariantWeights, if_neg (by simp : ¬ (false = true)), Kernel.denseWeight]

theorem convolveAtAPoint_addw (inI : Image) (x0 y0 : ℕ) (w1 w2 : ℕ → ℕ → ℚ)
    (kW kH : ℕ) :
    convolveAtAPoint inI x0 y0 (fun i j => w1 i j + w2 i j) kW kH
      = convolveAtAPoint inI x0 y0 w1 kW kH + convolveAtAPoint inI x0 y0 w2 kW kH := by
  simp only [convolveAtAPoint, mul_add, Finset.sum_add_distrib]

theorem convolveAtAPoint_smulw (inI : Image) (x0 y0 : ℕ) (c : ℚ) (w : ℕ → ℕ → ℚ)
    (kW kH : ℕ) :
    convolveAtAPoint inI x0 y0 (fun i j => c * w i j) kW kH
      = c * convolveAtAPoint inI x0 y0 w kW kH := by
  rw [convolveAtAPoint, convolveAtAPoint, Finset.mul_sum]
  refine Finset.sum_congr rfl fun j _ => ?_
  rw [Finset.mul_sum]
  refine Finset.sum_congr rfl fun i _ => ?_
  ring

/-- The dense point convolution against a coefficient-weighted sum of basis
weight images is the coefficient-weighted sum of the per-basis
convolutions. -/
theorem conv_combined (inI : Image) (x0 y0 kW kH : ℕ) (pa pb : ℚ)
    (bases : List (Kernel × (ℚ → ℚ → ℚ))) :
    convolveAtAPoint inI x0 y0
        (fun i j => (bases.map (fun p => p.2 pa pb * p.1.denseWeight pa pb i j)).sum) kW kH
      = (bases.map (fun p => p.2 pa pb
          * convolveAtAPoint inI x0 y0 (p.1.denseWeight pa pb) kW kH)).sum := by
  induction bases with
  | nil => simp [convolveAtAPoint]
  | cons p rest ih =>
    simp only [List.map_cons, List.sum_cons, ← ih]
    simp only [convolveAtAPoint, Finset.mul_sum, mul_add, ← Finset.sum_add_distrib]
    refine Finset.sum_congr rfl fun j _ => ?_
    refine Finset.sum_congr rfl fun i _ => ?_
    ring

/-- copyBorder does not modify any pixel of the valid region: the four
strips are disjoint from it. -/
theorem copyBorder_region_pix (o inI : Image) (kW kH cx cy : ℕ)
    (hkw : kW ≤ inI.width) (hkh : kH ≤ inI.height) (hcx : cx < kW) (hcy : cy < kH)
    (a b : ℕ)
    (hab : (regionOf inI.width inI.height kW kH cx cy).contains a b) :
    (copyBorder o inI kW kH cx cy).pix a b = o.pix a b := by
  obtain ⟨h1, h2, h3, h4⟩ := (regionOf_contains inI.width inI.height kW kH cx cy a b).mp hab
  rw [copyBorder, copyRegion, mapRegion_pix,
    if_neg (by simp only [rightEdge]; omega), copyRegion, mapRegion_pix,
    if_neg (by simp only [leftEdge]; omega), copyRegion, mapRegion_pix,
    if_neg (by simp only [topEdge]; omega), copyRegion, mapRegion_pix,
    if_neg (by simp only [bottomEdge]; omega)]

/-- The basis loop of convolveLinear succeeds on well-formed fixed bases
and accumulates, at every valid-region pixel, the coefficient-weighted sum
of the per-basis dense convolutions on top of the incoming output image. -/
theorem convolveLinearLoop_ok (inI : Image) (kW kH cx cy : ℕ)
    (hkw : kW ≤ inI.width) (hkh : kH ≤ inI.height) (hcx : cx < kW) (hcy : cy < kH) :
    ∀ (bases : List (Kernel × (ℚ → ℚ → ℚ))) (w0 o : Image),
    (∀ p ∈ bases, p.1.width = kW ∧ p.1.height = kH ∧ p.1.ctrX = cx ∧ p.1.ctrY = cy
        ∧ p.1.isSpatiallyVarying = false ∧ p.1.wf) →
    w0.width = inI.width → w0.height = inI.height →
    ∃ st : Image × Image,
      convolveLinearLoop inI cx cy (inI.width + 1 - kW) (inI.height + 1 - kH) bases (w0, o)
        = Except.ok st
      ∧ st.2.width = o.width ∧ st.2.height = o.height
      ∧ ∀ a b : ℕ, (regionOf inI.width inI.height kW kH cx cy).contains a b →
          st.2.pix a b = o.pix a b
            + (bases.map (fun p => p.2 (indexToPosition a) (indexToPosition b)
                * convolveAtAPoint inI (a - cx) (b - cy)
                    (p.1.denseWeight (indexToPosition 0) (indexToPosition 0)) kW kH)).sum := by
  intro bases
  induction bases with
  | nil =>
    intro w0 o hb hww hwh
    exact ⟨(w0, o), rfl, rfl, rfl, fun a b hab => by simp⟩
  | cons p rest ih =>
    intro w0 o hb hww hwh
    obtain ⟨hbw, hbh, hbx, hby, hbsv, hbwf⟩ := hb p (List.mem_cons_self p rest)
    obtain ⟨res, hres, hrw, hrh, hrpix⟩ :=
      basicConvolve_fixed_ok w0 inI p.1 hww hwh (hbw ▸ hkw) (hbh ▸ hkh)
        (by omega) (by omega) hbsv hbwf
    have hstep : convolveLinearLoop inI cx cy (inI.width + 1 - kW) (inI.height + 1 - kH)
        (p :: rest) (w0, o)
        = convolveLinearLoop inI cx cy (inI.width + 1 - kW) (inI.height + 1 - kH) rest
            (res,
             mapRegion cx cy (inI.width + 1 - kW) (inI.height + 1 - kH)
               (fun i j cur =>
                 cur + res.pix (cx + i) (cy + j)
                     * p.2 (indexToPosition (cx + i)) (indexToPosition (cy + j))) o) := by
      rw [convolveLinearLoop, hres]
      rfl
    obtain ⟨st, hst, hstw, hsth, hstpix⟩ :=
      ih res (mapRegion cx cy (inI.width + 1 - kW) (inI.height + 1 - kH)
          (fun i j cur =>
            cur + res.pix (cx + i) (cy + j)
                * p.2 (indexToPosition (cx + i)) (indexToPosition (cy + j))) o)
        (fun q hq => hb q (List.mem_cons_of_mem p hq))
        (hrw.trans hww) (hrh.trans hwh)
    refine ⟨st, by rw [hstep, hst], by rw [hstw, mapRegion_width],
      by rw [hsth, mapRegion_height], fun a b hab => ?_⟩
    obtain ⟨h1, h2, h3, h4⟩ := (regionOf_contains inI.width inI.height kW kH cx cy a b).mp hab
    rw [hstpix a b hab, mapRegion_pix, if_pos ⟨h1, h2, h3, h4⟩,
      Nat.add_sub_cancel' h1, Nat.add_sub_cancel' h3]
    rw [hrpix a b (by rw [hbw, hbh, hbx, hby]; exact hab), hbw, hbh, hbx, hby,
      List.map_cons, List.sum_cons]
    ring

/-- C3: for a spatially-varying linear-combination kernel with fixed
well-formed basis kernels sharing the combined dimensions and anchor,
convolveLinear fills every valid-region pixel with the same value as the
direct un-normalized per-pixel convolution of basicConvolve with the
combined kernel; and for a non-spatially-varying kernel convolveLinear
reduces to a single ordinary un-normalized convolution call. -/
theorem claim3_convolveLinear_matches_direct
    (out inI : Image) (k : LinearCombinationKernel) (edgeBit : ℤ)
    (hw : out.width = inI.width) (hh : out.height = inI.height)
    (hkw : k.kW ≤ inI.width) (hkh : k.kH ≤ inI.height)
    (hcx : k.lctrX < k.kW) (hcy : k.lctrY < k.kH)
    (hbases : ∀ p ∈ k.bases, p.1.width = k.kW ∧ p.1.height = k.kH
        ∧ p.1.ctrX = k.lctrX ∧ p.1.ctrY = k.lctrY
        ∧ p.1.isSpatiallyVarying = false ∧ p.1.wf ∧ p.1.positionIndependent) :
    (k.sv = true →
      ∀ a b : ℕ, (regionOf inI.width inI.height k.kW k.kH k.lctrX k.lctrY).contains a b →
        (runConv out (convolveLinear out inI k edgeBit)).pix a b
          = (runConv out (basicConvolve out inI k.toGeneric false)).pix a b)
    ∧ (k.sv = false →
        convolveLinear out inI k edgeBit = convolve out inI k.toGeneric false edgeBit) := by
  constructor
  · intro hsv a b hab
    obtain ⟨h1, h2, h3, h4⟩ :=
      (regionOf_contains inI.width inI.height k.kW k.kH k.lctrX k.lctrY a b).mp hab
    have hrhs : (runConv out (basicConvolve out inI k.toGeneric false)).pix a b
        = convolveAtAPoint inI (a - k.lctrX) (b - k.lctrY)
            (k.combinedWeight (indexToPosition a) (indexToPosition b)) k.kW k.kH := by
      rw [LinearCombinationKernel.toGeneric, hsv,
        basicConvolveGeneric_varying_region out inI k.kW k.kH k.lctrX k.lctrY
          k.combinedWeight false hw hh hkw hkh a b hab]
      simp only [genericVaryingValue]
      rw [Nat.add_sub_cancel' h1, Nat.add_sub_cancel' h3,
        if_neg (by simp : ¬ (false = true))]
    rw [hrhs, convolveLinear, if_neg (by rw [hsv]; simp : ¬ (k.sv = false)),
      if_neg (not_not_intro ⟨hw, hh⟩),
      if_neg (by omega : ¬ (inI.width < k.kW ∨ inI.height < k.kH))]
    obtain ⟨st, hst, hstw, hsth, hstpix⟩ :=
      convolveLinearLoop_ok inI k.kW k.kH k.lctrX k.lctrY hkw hkh hcx hcy k.bases
        (zeroImage inI.width inI.height)
        (mapRegion k.lctrX k.lctrY (inI.width + 1 - k.kW) (inI.height + 1 - k.kH)
          (fun _ _ _ => 0) out)
        (fun p hp => ⟨(hbases p hp).1, (hbases p hp).2.1, (hbases p hp).2.2.1,
          (hbases p hp).2.2.2.1, (hbases p hp).2.2.2.2.1, (hbases p hp).2.2.2.2.2.1⟩)
        rfl rfl
    dsimp only
    rw [hst]
    show (copyBorder st.2 inI k.kW k.kH k.lctrX k.lctrY).pix a b = _
    rw [copyBorder_region_pix st.2 inI k.kW k.kH k.lctrX k.lctrY hkw hkh hcx hcy a b hab,
      hstpix a b hab, mapRegion_pix, if_pos ⟨h1, h2, h3, h4⟩, zero_add]
    have hmap : k.bases.map (fun p => p.2 (indexToPosition a) (indexToPosition b)
          * convolveAtAPoint inI (a - k.lctrX) (b - k.lctrY)
              (p.1.denseWeight (indexToPosition 0) (indexToPosition 0)) k.kW k.kH)
        = k.bases.map (fun p => p.2 (indexToPosition a) (indexToPosition b)
          * convolveAtAPoint inI (a - k.lctrX) (b - k.lctrY)
              (p.1.denseWeight (indexToPosition a) (indexToPosition b)) k.kW k.kH) := by
      refine List.map_congr_left fun p hp => ?_
      rw [convolveAtAPoint_congr inI (a - k.lctrX) (b - k.lctrY)
        (fun i j => (hbases p hp).2.2.2.2.2.2 (indexToPosition 0) (indexToPosition 0)
          (indexToPosition a) (indexToPosition b) i j) k.kW k.kH]
    rw [hmap, ← conv_combined]
    rfl
  · intro hsv
    rw [convolveLinear, if_pos hsv]

/-- Concrete spatially-varying linear-combination kernel for the C3
witness. -/
def exC3kernel : LinearCombinationKernel :=
  ⟨2, 1, 0, 0, true, [(Kernel.delta 2 1 0 0 1 0, fun a _ => a)]⟩

/-- C3, witness at a concrete instance. -/
theorem claim3_witness :
    (regionOf exC1in.width exC1in.height exC3kernel.kW exC3kernel.kH
        exC3kernel.lctrX exC3kernel.lctrY).contains 1 1
    ∧ ((exC3kernel.sv = true →
        ∀ a b : ℕ, (regionOf exC1in.width exC1in.height exC3kernel.kW exC3kernel.kH
            exC3kernel.lctrX exC3kernel.lctrY).contains a b →
          (runConv exC1out (convolveLinear exC1out exC1in exC3kernel 0)).pix a b
            = (runConv exC1out (basicConvolve exC1out exC1in exC3kernel.toGeneric false)).pix a b)
      ∧ (exC3kernel.sv = false →
          convolveLinear exC1out exC1in exC3kernel 0
            = convolve exC1out exC1in exC3kernel.toGeneric false 0)) :=
  ⟨by decide,
   claim3_convolveLinear_matches_direct exC1out exC1in exC3kernel 0 rfl rfl
     (by norm_num [exC1in, exC3kernel]) (by norm_num [exC1in, exC3kernel])
     (by norm_num [exC3kernel]) (by norm_num [exC3kernel])
     (by
       intro p hp
       rw [exC3kernel, List.mem_singleton] at hp
       subst hp
       exact ⟨rfl, rfl, rfl, rfl, rfl, ⟨by norm_num, by norm_num⟩,
         fun _ _ _ _ _ _ => rfl⟩)⟩

/-- Characterization of the inner interpolation loop: starting with working
kernel image k at column x, the pixel written at column x + t (t within the
remaining count) is the point convolution against k plus t increments of the
horizontal delta; pixels off the written span are untouched. -/
theorem convInner_fst_pix (inI : Image) (delta : ℕ → ℕ → ℚ) (kW kH : ℕ) :
    ∀ (rem xin yin x y : ℕ) (k : ℕ → ℕ → ℚ) (o : Image) (a b : ℕ),
    (convInner inI delta kW kH xin yin x y rem k o).1.pix a b =
      if b = y ∧ x ≤ a ∧ a ≤ x + rem then
        convolveAtAPoint inI (xin + (a - x)) yin
          (fun i j => k i j + ((a - x : ℕ) : ℚ) * delta i j) kW kH
      else o.pix a b := by
  intro rem
  induction rem with
  | zero =>
    intro xin yin x y k o a b
    rw [convInner]
    show (o.set x y (convolveAtAPoint inI xin yin k kW kH)).pix a b = _
    rw [Image.set_pix]
    by_cases hab : a = x ∧ b = y
    · obtain ⟨ha, hb⟩ := hab
      rw [if_pos ⟨ha, hb⟩, if_pos (by omega : b = y ∧ x ≤ a ∧ a ≤ x + 0)]
      subst ha
      rw [Nat.sub_self, Nat.add_zero]
      refine convolveAtAPoint_congr inI xin yin (fun i j => ?_) kW kH
      push_cast
      ring
    · rw [if_neg hab, if_neg (by omega : ¬ (b = y ∧ x ≤ a ∧ a ≤ x + 0))]
  | succ n ih =>
    intro xin yin x y k o a b
    rw [convInner]
    show (convInner inI delta kW kH (xin + 1) yin (x + 1) y n (kadd k delta)
        (o.set x y (convolveAtAPoint inI xin yin k kW kH))).1.pix a b = _
    rw [ih]
    by_cases hin : b = y ∧ x + 1 ≤ a ∧ a ≤ x + 1 + n
    · rw [if_pos hin, if_pos (by omega : b = y ∧ x ≤ a ∧ a ≤ x + (n + 1))]
      have hxy : x + 1 ≤ a := hin.2.1
      have h1 : xin + 1 + (a - (x + 1)) = xin + (a - x) := by omega
      rw [h1]
      refine convolveAtAPoint_congr inI (xin + (a - x)) yin (fun i j => ?_) kW kH
      rw [kadd]
      have h2 : ((a - (x + 1) : ℕ) : ℚ) = ((a - x : ℕ) : ℚ) - 1 := by
        have : a - (x + 1) + 1 = a - x := by omega
        push_cast [← this]
        ring
      rw [h2]
      ring
    · rw [if_neg hin, Image.set_pix]
      by_cases hab : a = x ∧ b = y
      · obtain ⟨ha, hb⟩ := hab
        rw [if_pos ⟨ha, hb⟩, if_pos (by omega : b = y ∧ x ≤ a ∧ a ≤ x + (n + 1))]
        subst ha
        rw [Nat.sub_self, Nat.add_zero]
        refine convolveAtAPoint_congr inI xin yin (fun i j => ?_) kW kH
        push_cast
        ring
      · rw [if_neg hab, if_neg (by omega : ¬ (b = y ∧ x ≤ a ∧ a ≤ x + (n + 1)))]

/-- Characterization of the interpolation row loop: the pixel written at
region offset (a - x0, b - y) is the point convolution against the working
kernel image obtained from the current left and right edge images advanced
by b - y vertical deltas and a - x0 horizontal deltas. -/
theorem convRows_pix (inI : Image) (ldelta rdelta : ℕ → ℕ → ℚ) (kW kH gw : ℕ)
    (xfrac : ℚ) :
    ∀ (remRows xin yin x0 y : ℕ) (left right : ℕ → ℕ → ℚ) (o : Image) (a b : ℕ),
    (convRows inI ldelta rdelta kW kH gw xfrac xin yin x0 y remRows left right o).pix a b =
      if y ≤ b ∧ b ≤ y + remRows ∧ x0 ≤ a ∧ a ≤ x0 + (gw - 1) then
        convolveAtAPoint inI (xin + (a - x0)) (yin + (b - y))
          (fun i j => (left i j + ((b - y : ℕ) : ℚ) * ldelta i j)
            + ((a - x0 : ℕ) : ℚ)
              * (xfrac * (right i j + ((b - y : ℕ) : ℚ) * rdelta i j)
                 - xfrac * (left i j + ((b - y : ℕ) : ℚ) * ldelta i j))) kW kH
      else o.pix a b := by
  intro remRows
  induction remRows with
  | zero =>
    intro xin yin x0 y left right o a b
    rw [convRows, convInner_fst_pix]
    by_cases hin : b = y ∧ x0 ≤ a ∧ a ≤ x0 + (gw - 1)
    · rw [if_pos hin, if_pos (by omega : y ≤ b ∧ b ≤ y + 0 ∧ x0 ≤ a ∧ a ≤ x0 + (gw - 1))]
      obtain ⟨hb, _, _⟩ := hin
      subst hb
      rw [Nat.sub_self, Nat.add_zero]
      refine convolveAtAPoint_congr inI (xin + (a - x0)) yin (fun i j => ?_) kW kH
      rw [scaledPlus]
      push_cast
      ring
    · rw [if_neg hin,
        if_neg (by omega : ¬ (y ≤ b ∧ b ≤ y + 0 ∧ x0 ≤ a ∧ a ≤ x0 + (gw - 1)))]
  | succ n ih =>
    intro xin yin x0 y left right o a b
    rw [convRows]
    show (convRows inI ldelta rdelta kW kH gw xfrac xin (yin + 1) x0 (y + 1) n
        (kadd left ldelta) (kadd right rdelta)
        (convInner inI (scaledPlus xfrac right (-xfrac) left) kW kH
          xin yin x0 y (gw - 1) left o).1).pix a b = _
    rw [ih]
    by_cases hin : y + 1 ≤ b ∧ b ≤ y + 1 + n ∧ x0 ≤ a ∧ a ≤ x0 + (gw - 1)
    · rw [if_pos hin,
        if_pos (by omega : y ≤ b ∧ b ≤ y + (n + 1) ∧ x0 ≤ a ∧ a ≤ x0 + (gw - 1))]
      have h1 : yin + 1 + (b - (y + 1)) = yin + (b - y) := by omega
      rw [h1]
      refine convolveAtAPoint_congr inI (xin + (a - x0)) (yin + (b - y))
        (fun i j => ?_) kW kH
      rw [kadd, kadd]
      have h2 : ((b - (y + 1) : ℕ) : ℚ) = ((b - y : ℕ) : ℚ) - 1 := by
        have h3 : b - (y + 1) + 1 = b - y := by omega
        push_cast [← h3]
        ring
      rw [h2]
      ring
    · rw [if_neg hin, convInner_fst_pix]
      by_cases hrow : b = y ∧ x0 ≤ a ∧ a ≤ x0 + (gw - 1)
      · rw [if_pos hrow,
          if_pos (by omega : y ≤ b ∧ b ≤ y + (n + 1) ∧ x0 ≤ a ∧ a ≤ x0 + (gw - 1))]
        obtain ⟨hb, _, _⟩ := hrow
        subst hb
        rw [Nat.sub_self, Nat.add_zero]
        refine convolveAtAPoint_congr inI (xin + (a - x0)) yin (fun i j => ?_) kW kH
        rw [scaledPlus]
        push_cast
        ring
      · rw [if_neg hrow,
          if_neg (by omega : ¬ (y ≤ b ∧ b ≤ y + (n + 1) ∧ x0 ≤ a ∧ a ≤ x0 + (gw - 1)))]

/-- The bilinear interpolation of the four corner kernel images of a region
at region offset (i, j), following the spec wording: fractions i/width and
j/height between the corner evaluations. -/
def bilinearInterp (r : KernelImagesForRegion) (i j : ℕ) : ℕ → ℕ → ℚ :=
  fun a b =>
    (1 - (i : ℚ) / r.w) * ((1 - (j : ℚ) / r.h) * r.bl a b + ((j : ℚ) / r.h) * r.tl a b)
      + ((i : ℚ) / r.w) * ((1 - (j : ℚ) / r.h) * r.br a b + ((j : ℚ) / r.h) * r.tr a b)

/-- C4: for a kernel whose weight image varies linearly with position and a
region whose corner images are the exact kernel evaluations at its corners,
the incrementally accumulated working kernel image of
convolveRegionWithInterpolation reproduces, in exact arithmetic, the
bilinear interpolation of the four corner evaluations at every pixel, which
for linear variation is the exact kernel at that pixel; hence the output at
every region pixel equals the exact un-normalized per-pixel evaluation of
the Basic Convolver. -/
theorem claim4_interpolation_exact_for_linear_kernel
    (out inI : Image) (r : KernelImagesForRegion)
    (wfun : ℚ → ℚ → ℕ → ℕ → ℚ) (p qx qy : ℕ → ℕ → ℚ)
    (hlin : ∀ (pa pb : ℚ) (i j : ℕ), wfun pa pb i j = p i j + pa * qx i j + pb * qy i j)
    (hbl : ∀ i j, r.bl i j = wfun (indexToPosition r.x0) (indexToPosition r.y0) i j)
    (hbr : ∀ i j, r.br i j = wfun (indexToPosition (r.x0 + r.w)) (indexToPosition r.y0) i j)
    (htl : ∀ i j, r.tl i j = wfun (indexToPosition r.x0) (indexToPosition (r.y0 + r.h)) i j)
    (htr : ∀ i j, r.tr i j = wfun (indexToPosition (r.x0 + r.w)) (indexToPosition (r.y0 + r.h)) i j)
    (hw1 : 1 ≤ r.w) (hh1 : 1 ≤ r.h) (hcx : r.ctrX ≤ r.x0) (hcy : r.ctrY ≤ r.y0)
    (i j : ℕ) (hi : i < r.w) (hj : j < r.h) :
    (convolveRegionWithInterpolation out inI r).pix (r.x0 + i) (r.y0 + j)
      = genericVaryingValue inI wfun false r.kW r.kH r.ctrX r.ctrY
          (r.x0 + i - r.ctrX) (r.y0 + j - r.ctrY)
    ∧ ∀ a b : ℕ, bilinearInterp r i j a b
        = wfun (indexToPosition (r.x0 + i)) (indexToPosition (r.y0 + j)) a b := by
  have hw0 : (r.w : ℚ) ≠ 0 := Nat.cast_ne_zero.mpr (by omega)
  have hh0 : (r.h : ℚ) ≠ 0 := Nat.cast_ne_zero.mpr (by omega)
  constructor
  · rw [convolveRegionWithInterpolation]
    rw [convRows_pix,
      if_pos (by omega : r.y0 ≤ r.y0 + j ∧ r.y0 + j ≤ r.y0 + (r.h - 1)
        ∧ r.x0 ≤ r.x0 + i ∧ r.x0 + i ≤ r.x0 + (r.w - 1))]
    simp only [Nat.add_sub_cancel_left]
    have hgvv : genericVaryingValue inI wfun false r.kW r.kH r.ctrX r.ctrY
        (r.x0 + i - r.ctrX) (r.y0 + j - r.ctrY)
        = convolveAtAPoint inI (r.x0 + i - r.ctrX) (r.y0 + j - r.ctrY)
            (wfun (indexToPosition (r.ctrX + (r.x0 + i - r.ctrX)))
              (indexToPosition (r.ctrY + (r.y0 + j - r.ctrY)))) r.kW r.kH := by
      simp [genericVaryingValue]
    rw [hgvv,
      (by omega : r.ctrX + (r.x0 + i - r.ctrX) = r.x0 + i),
      (by omega : r.ctrY + (r.y0 + j - r.ctrY) = r.y0 + j),
      (by omega : r.x0 - r.ctrX + i = r.x0 + i - r.ctrX),
      (by omega : r.y0 - r.ctrY + j = r.y0 + j - r.ctrY)]
    refine convolveAtAPoint_congr inI (r.x0 + i - r.ctrX) (r.y0 + j - r.ctrY)
      (fun aable bable => ?_) r.kW r.kH
    simp only [scaledPlus]
    rw [hbl, hbr, htl, htr, hlin, hlin, hlin, hlin, hlin]
    simp only [indexToPosition]
    push_cast
    field_simp
    ring
  · intro a b
    rw [bilinearInterp]
    rw [hbl, hbr, htl, htr, hlin, hlin, hlin, hlin, hlin]
    simp only [indexToPosition]
    push_cast
    field_simp
    ring

/-- Concrete region and linear kernel for the C4 witness: a 1 x 1 kernel
whose single weight equals the x position, over the region [0, 2) x [0, 2). -/
def exC4region : KernelImagesForRegion :=
  ⟨1, 1, 0, 0, 0, 0, 2, 2, false,
   fun _ _ => 0, fun _ _ => 2, fun _ _ => 0, fun _ _ => 2⟩

def exC4wfun : ℚ → ℚ → ℕ → ℕ → ℚ := fun pa _ _ _ => pa

/-- C4, witness at a concrete instance. -/
theorem claim4_witness :
    (1 < exC4region.w ∧ 1 < exC4region.h)
    ∧ ((convolveRegionWithInterpolation exC1out exC1in exC4region).pix
          (exC4region.x0 + 1) (exC4region.y0 + 1)
        = genericVaryingValue exC1in exC4wfun false exC4region.kW exC4region.kH
            exC4region.ctrX exC4region.ctrY
            (exC4region.x0 + 1 - exC4region.ctrX) (exC4region.y0 + 1 - exC4region.ctrY)
      ∧ ∀ a b : ℕ, bilinearInterp exC4region 1 1 a b
          = exC4wfun (indexToPosition (exC4region.x0 + 1))
              (indexToPosition (exC4region.y0 + 1)) a b) :=
  ⟨⟨by norm_num [exC4region], by norm_num [exC4region]⟩,
   claim4_interpolation_exact_for_linear_kernel exC1out exC1in exC4region exC4wfun
     (fun _ _ => 0) (fun _ _ => 1) (fun _ _ => 0)
     (fun pa pb i j => by simp [exC4wfun])
     (fun i j => by norm_num [exC4region, exC4wfun, indexToPosition])
     (fun i j => by norm_num [exC4region, exC4wfun, indexToPosition])
     (fun i j => by norm_num [exC4region, exC4wfun, indexToPosition])
     (fun i j => by norm_num [exC4region, exC4wfun, indexToPosition])
     (by norm_num [exC4region]) (by norm_num [exC4region])
     (by norm_num [exC4region]) (by norm_num [exC4region])
     1 1 (by norm_num [exC4region]) (by norm_num [exC4region])⟩

/-- Every part of the even partition of a length total into 1 + total / d
parts has length at most d. -/
theorem subLength_le (total d idx : ℕ) (hd : 0 < d) :
    subLength total (1 + total / d) idx ≤ d := by
  have hn : 0 < 1 + total / d :=
    Nat.lt_of_lt_of_le Nat.one_pos (Nat.le_add_right 1 (total / d))
  set n := 1 + total / d with hn_def
  have h1 : total < d * n := by
    have hmlt : total % d < d := Nat.mod_lt _ hd
    calc total = d * (total / d) + total % d := (Nat.div_add_mod total d).symm
      _ < d * (total / d) + d := Nat.add_lt_add_left hmlt _
      _ = d * n := by rw [hn_def]; ring
  have h2 : total / n < d := (Nat.div_lt_iff_lt_mul hn).mpr h1
  have h3 : total * (idx + 1) / n ≤ total * idx / n + total / n + 1 := by
    have hexp : total * (idx + 1) = total * idx + total := by ring
    rw [hexp, Nat.add_div hn]
    split
    · exact Nat.le_refl _
    · rw [Nat.add_zero]
      exact Nat.le_succ _
  rw [subLength, subBegin, subBegin]
  generalize hq3 : total * (idx + 1) / n = q3 at h3 ⊢
  generalize hq1 : total * idx / n = q1 at h3 ⊢
  generalize hq2 : total / n = q2 at h2 h3
  omega

/-- C7: with valid-area extents gW, gH and positive maxInterpolationDistance
d, the grid built by convolveWithInterpolation has nx = 1 + gW / d columns
and ny = 1 + gH / d rows of sub-regions (the very indices it iterates), and
consequently every sub-region of that grid has width and height at most
d. -/
theorem claim7_grid_dimensions_bound_subregions
    (k : Kernel) (dn : Bool) (gx0 gy0 gW gH d ix iy : ℕ) (hd : 0 < d) :
    (mkRegion k dn gx0 gy0 gW gH (1 + gW / d) (1 + gH / d) ix iy).w ≤ d
    ∧ (mkRegion k dn gx0 gy0 gW gH (1 + gW / d) (1 + gH / d) ix iy).h ≤ d := by
  constructor
  · show subLength gW (1 + gW / d) ix ≤ d
    exact subLength_le gW d ix hd
  · show subLength gH (1 + gH / d) iy ≤ d
    exact subLength_le gH d iy hd

/-- C7, witness at a concrete instance. -/
theorem claim7_witness :
    0 < 3
    ∧ ((mkRegion (Kernel.delta 1 1 0 0 0 0) false 0 0 10 7 (1 + 10 / 3) (1 + 7 / 3) 2 0).w ≤ 3
      ∧ (mkRegion (Kernel.delta 1 1 0 0 0 0) false 0 0 10 7 (1 + 10 / 3) (1 + 7 / 3) 2 0).h ≤ 3) :=
  ⟨by norm_num,
   claim7_grid_dimensions_bound_subregions (Kernel.delta 1 1 0 0 0 0) false
     0 0 10 7 3 2 0 (by norm_num)⟩

theorem foldl_congr_fun {α β : Type} (l : List α) (f g : β → α → β) (b : β)
    (h : ∀ x a, f x a = g x a) : l.foldl f b = l.foldl g b := by
  induction l generalizing b with
  | nil => rfl
  | cons x xs ih => rw [List.foldl_cons, List.foldl_cons, h, ih]

/-- C8: the interpolated convolution path performs no normalization: the
output of convolveWithInterpolation is the same whether the doNormalize
option of the ConvolutionControl is true or false.  The flag is forwarded
into the region objects but, per the spec, the interpolated path does not
normalize, so it never affects the corner evaluations or the output. -/
theorem claim8_interpolation_ignores_doNormalize
    (out inI : Image) (k : Kernel) (d : ℕ) :
    convolveWithInterpolation out inI k ⟨true, d⟩
      = convolveWithInterpolation out inI k ⟨false, d⟩ := by
  rw [convolveWithInterpolation, convolveWithInterpolation]
  by_cases hd : ¬ (out.width = inI.width ∧ out.height = inI.height)
  · rw [if_pos hd, if_pos hd]
  · rw [if_neg hd, if_neg hd]
    exact congrArg Except.ok
      (foldl_congr_fun _ _ _ _ fun o iy =>
        foldl_congr_fun _ _ _ _ fun o2 ix => rfl)

/-- Number of border strips of copyBorder containing a given pixel. -/
def stripCount (imW imH kW kH cx cy a b : ℕ) : ℕ :=
  (if (bottomEdge imW imH kW kH cx cy).contains a b then 1 else 0)
  + (if (topEdge imW imH kW kH cx cy).contains a b then 1 else 0)
  + (if (leftEdge imW imH kW kH cx cy).contains a b then 1 else 0)
  + (if (rightEdge imW imH kW kH cx cy).contains a b then 1 else 0)

theorem bottomEdge_contains_iff (imW imH kW kH cx cy a b : ℕ) :
    (bottomEdge imW imH kW kH cx cy).contains a b ↔
      0 ≤ a ∧ a < 0 + imW ∧ 0 ≤ b ∧ b < 0 + cy := Iff.rfl

theorem topEdge_contains_iff (imW imH kW kH cx cy a b : ℕ) :
    (topEdge imW imH kW kH cx cy).contains a b ↔
      0 ≤ a ∧ a < 0 + imW
        ∧ imH - (kH - (1 + cy)) ≤ b ∧ b < imH - (kH - (1 + cy)) + (kH - (1 + cy)) :=
  Iff.rfl

theorem leftEdge_contains_iff (imW imH kW kH cx cy a b : ℕ) :
    (leftEdge imW imH kW kH cx cy).contains a b ↔
      0 ≤ a ∧ a < 0 + cx ∧ cy ≤ b ∧ b < cy + (imH + 1 - kH) := Iff.rfl

theorem rightEdge_contains_iff (imW imH kW kH cx cy a b : ℕ) :
    (rightEdge imW imH kW kH cx cy).contains a b ↔
      imW - (kW - (1 + cx)) ≤ a ∧ a < imW - (kW - (1 + cx)) + (kW - (1 + cx))
        ∧ cy ≤ b ∧ b < cy + (imH + 1 - kH) := Iff.rfl

theorem copyRegion_pix (out inI : Image) (bx : BBox) (a b : ℕ) :
    (copyRegion out inI bx).pix a b =
      if bx.contains a b then inI.pix a b else out.pix a b := by
  rw [copyRegion, mapRegion_pix]
  by_cases h : bx.contains a b
  · have h' := h
    obtain ⟨h1, h2, h3, h4⟩ := h'
    rw [if_pos (⟨h1, h2, h3, h4⟩ :
        bx.x0 ≤ a ∧ a < bx.x0 + bx.w ∧ bx.y0 ≤ b ∧ b < bx.y0 + bx.h),
      if_pos h,
      (by omega : bx.x0 + (a - bx.x0) = a), (by omega : bx.y0 + (b - bx.y0) = b)]
  · rw [if_neg
      (fun hc : bx.x0 ≤ a ∧ a < bx.x0 + bx.w ∧ bx.y0 ≤ b ∧ b < bx.y0 + bx.h => h hc),
      if_neg h]

/-- C9, amended.  The four strips of copyBorder are: a bottom strip of
height equal to the y anchor and a top strip of height
kernelHeight - 1 - yAnchor, each spanning the full image width; and a left
strip of width equal to the x anchor and a right strip of width
kernelWidth - 1 - xAnchor spanning only the middle rows
[yAnchor, height - (kernelHeight - 1 - yAnchor)).  The strips are pairwise
disjoint, so every border pixel is written exactly once (corner pixels
belong to the bottom or top strip only), and their union is exactly the
border left unset by the convolution step: copyBorder copies the input
pixel onto every non-region pixel and leaves every region pixel
untouched. -/
theorem claim9_border_strips_partition
    (out inI : Image) (kW kH cx cy : ℕ)
    (hkw : kW ≤ inI.width) (hkh : kH ≤ inI.height) (hcx : cx < kW) (hcy : cy < kH)
    (a b : ℕ) (ha : a < inI.width) (hb : b < inI.height) :
    stripCount inI.width inI.height kW kH cx cy a b
      = (if (regionOf inI.width inI.height kW kH cx cy).contains a b then 0 else 1)
    ∧ (copyBorder out inI kW kH cx cy).pix a b
      = (if (regionOf inI.width inI.height kW kH cx cy).contains a b then out.pix a b
         else inI.pix a b) := by
  constructor
  · simp only [stripCount, bottomEdge_contains_iff, topEdge_contains_iff,
      leftEdge_contains_iff, rightEdge_contains_iff, regionOf_contains]
    split_ifs <;> omega
  · by_cases hreg : (regionOf inI.width inI.height kW kH cx cy).contains a b
    · rw [if_pos hreg, copyBorder_region_pix out inI kW kH cx cy hkw hkh hcx hcy a b hreg]
    · rw [if_neg hreg]
      have hnr := (regionOf_contains inI.width inI.height kW kH cx cy a b).not.mp hreg
      rw [copyBorder]
      by_cases hR : (rightEdge inI.width inI.height kW kH cx cy).contains a b
      · rw [copyRegion_pix, if_pos hR]
      · rw [copyRegion_pix, if_neg hR]
        by_cases hL : (leftEdge inI.width inI.height kW kH cx cy).contains a b
        · rw [copyRegion_pix, if_pos hL]
        · rw [copyRegion_pix, if_neg hL]
          by_cases hT : (topEdge inI.width inI.height kW kH cx cy).contains a b
          · rw [copyRegion_pix, if_pos hT]
          · rw [copyRegion_pix, if_neg hT]
            have hBot : (bottomEdge inI.width inI.height kW kH cx cy).contains a b := by
              rw [bottomEdge_contains_iff]
              rw [rightEdge_contains_iff] at hR
              rw [leftEdge_contains_iff] at hL
              rw [topEdge_contains_iff] at hT
              omega
            rw [copyRegion_pix, if_pos hBot]

/-- C9, counterexample to the claim as stated: for a 5 x 5 image and a 3 x 3
kernel anchored at (1, 1), the left strip has height 3 (the middle rows),
not the full orthogonal extent 5, the corner (0, 0) is not in it even though
the strip has positive width, and the corner is covered by exactly one
strip, not two. -/
theorem claim9_counterexample :
    (leftEdge 5 5 3 3 1 1).h = 3
    ∧ (leftEdge 5 5 3 3 1 1).w = 1
    ∧ ¬ (leftEdge 5 5 3 3 1 1).contains 0 0
    ∧ stripCount 5 5 3 3 1 1 0 0 = 1 := by
  refine ⟨rfl, rfl, ?_, ?_⟩
  · decide
  · decide

/-- Concrete 5 x 5 input image for the C9 witness. -/
def exC9in : Image := ⟨5, 5, fun x y => (x : ℚ) + 10 * (y : ℚ)⟩

/-- C9, witness for the amended theorem at a concrete instance. -/
theorem claim9_witness :
    (3 ≤ exC9in.width ∧ 0 < exC9in.width)
    ∧ (stripCount exC9in.width exC9in.height 3 3 1 1 0 0
        = (if (regionOf exC9in.width exC9in.height 3 3 1 1).contains 0 0 then 0 else 1)
      ∧ (copyBorder (zeroImage 5 5) exC9in 3 3 1 1).pix 0 0
        = (if (regionOf exC9in.width exC9in.height 3 3 1 1).contains 0 0
           then (zeroImage 5 5).pix 0 0 else exC9in.pix 0 0)) :=
  ⟨⟨by norm_num [exC9in], by norm_num [exC9in]⟩,
   claim9_border_strips_partition (zeroImage 5 5) exC9in 3 3 1 1
     (by norm_num [exC9in]) (by norm_num [exC9in]) (by norm_num) (by norm_num)
     0 0 (by norm_num [exC9in]) (by norm_num [exC9in])⟩

/-- Characterization of one destination row of warpExposure: the counter
gains one per non-edge pixel of the row, edge pixels receive the edge pixel,
non-edge pixels the warped pixel, and nothing else changes. -/
theorem warpRowFold_spec (destWcs srcWcs : Wcs) (src : MaskedImage)
    (k : SeparableWarpKernel) (edgePixelMask : ℕ) (dy : ℕ) :
    ∀ (n : ℕ) (st : MaskedImage × ℕ),
    (((List.range n).foldl (warpRowStep destWcs srcWcs src k edgePixelMask dy) st).2
      = st.2 + ∑ dx ∈ Finset.range n,
          (if warpEdge destWcs srcWcs k src.width src.height dx dy then 0 else 1))
    ∧ (∀ dx : ℕ, dx < n →
        ((List.range n).foldl (warpRowStep destWcs srcWcs src k edgePixelMask dy) st).1.pix dx dy
          = if warpEdge destWcs srcWcs k src.width src.height dx dy
            then (⟨0, edgePixelMask, 0⟩ : MaskedPixel)
            else warpedPixel destWcs srcWcs src k dx dy)
    ∧ (∀ a b : ℤ, (b ≠ (dy : ℤ) ∨ a < 0 ∨ (n : ℤ) ≤ a) →
        ((List.range n).foldl (warpRowStep destWcs srcWcs src k edgePixelMask dy) st).1.pix a b
          = st.1.pix a b) := by
  intro n
  induction n with
  | zero =>
    intro st
    exact ⟨by simp, fun dx h => absurd h (by omega), fun a b h => rfl⟩
  | succ n ih =>
    intro st
    have hsnoc : (List.range (n + 1)).foldl
        (warpRowStep destWcs srcWcs src k edgePixelMask dy) st
        = warpRowStep destWcs srcWcs src k edgePixelMask dy
            ((List.range n).foldl (warpRowStep destWcs srcWcs src k edgePixelMask dy) st) n := by
      rw [List.range_succ, List.foldl_append, List.foldl_cons, List.foldl_nil]
    refine ⟨?_, ?_, ?_⟩
    · rw [hsnoc, warpRowStep, Finset.sum_range_succ]
      by_cases he : warpEdge destWcs srcWcs k src.width src.height n dy
      · rw [if_pos he, if_pos he]
        show ((List.range n).foldl _ st).2 = _
        rw [(ih st).1]
        omega
      · rw [if_neg he, if_neg he]
        show ((List.range n).foldl _ st).2 + 1 = _
        rw [(ih st).1]
        omega
    · intro dx hdx
      rw [hsnoc, warpRowStep]
      by_cases hdn : dx = n
      · subst hdn
        by_cases he : warpEdge destWcs srcWcs k src.width src.height dx dy
        · rw [if_pos he, if_pos he]
          show (MaskedImage.set _ _ _ _).pix dx dy = _
          rw [maskedImage_set_pix, if_pos ⟨rfl, rfl⟩]
        · rw [if_neg he, if_neg he]
          show (MaskedImage.set _ _ _ _).pix dx dy = _
          rw [maskedImage_set_pix, if_pos ⟨rfl, rfl⟩]
      · have hlt : dx < n := by omega
        by_cases he : warpEdge destWcs srcWcs k src.width src.height n dy
        · rw [if_pos he]
          show (MaskedImage.set _ _ _ _).pix dx dy = _
          rw [maskedImage_set_pix,
            if_neg (by
              intro hc
              exact hdn (by exact_mod_cast hc.1)),
            (ih st).2.1 dx hlt]
        · rw [if_neg he]
          show (MaskedImage.set _ _ _ _).pix dx dy = _
          rw [maskedImage_set_pix,
            if_neg (by
              intro hc
              exact hdn (by exact_mod_cast hc.1)),
            (ih st).2.1 dx hlt]
    · intro a b hab
      rw [hsnoc, warpRowStep]
      by_cases he : warpEdge destWcs srcWcs k src.width src.height n dy
      · rw [if_pos he]
        show (MaskedImage.set _ _ _ _).pix a b = _
        rw [maskedImage_set_pix, if_neg (by omega), (ih st).2.2 a b (by omega)]
      · rw [if_neg he]
        show (MaskedImage.set _ _ _ _).pix a b = _
        rw [maskedImage_set_pix, if_neg (by omega), (ih st).2.2 a b (by omega)]

/-- Characterization of the full warpExposure loop over the first n
destination rows. -/
theorem warpFold_spec (destWcs srcWcs : Wcs) (src : MaskedImage)
    (k : SeparableWarpKernel) (edgePixelMask : ℕ) (w : ℕ) :
    ∀ (n : ℕ) (st : MaskedImage × ℕ),
    (((List.range n).foldl (fun st2 dy =>
        (List.range w).foldl (warpRowStep destWcs srcWcs src k edgePixelMask dy) st2) st).2
      = st.2 + ∑ dy ∈ Finset.range n, ∑ dx ∈ Finset.range w,
          (if warpEdge destWcs srcWcs k src.width src.height dx dy then 0 else 1))
    ∧ (∀ dx dy : ℕ, dx < w → dy < n →
        ((List.range n).foldl (fun st2 dy =>
          (List.range w).foldl (warpRowStep destWcs srcWcs src k edgePixelMask dy) st2) st).1.pix dx dy
          = if warpEdge destWcs srcWcs k src.width src.height dx dy
            then (⟨0, edgePixelMask, 0⟩ : MaskedPixel)
            else warpedPixel destWcs srcWcs src k dx dy)
    ∧ (∀ a b : ℤ, (b < 0 ∨ (n : ℤ) ≤ b) →
        ((List.range n).foldl (fun st2 dy =>
          (List.range w).foldl (warpRowStep destWcs srcWcs src k edgePixelMask dy) st2) st).1.pix a b
          = st.1.pix a b) := by
  intro n
  induction n with
  | zero =>
    intro st
    exact ⟨by simp, fun dx dy h1 h2 => absurd h2 (by omega), fun a b h => rfl⟩
  | succ n ih =>
    intro st
    have hsnoc : (List.range (n + 1)).foldl (fun st2 dy =>
        (List.range w).foldl (warpRowStep destWcs srcWcs src k edgePixelMask dy) st2) st
        = (List.range w).foldl (warpRowStep destWcs srcWcs src k edgePixelMask n)
            ((List.range n).foldl (fun st2 dy =>
              (List.range w).foldl (warpRowStep destWcs srcWcs src k edgePixelMask dy) st2) st) := by
      rw [List.range_succ, List.foldl_append, List.foldl_cons, List.foldl_nil]
    refine ⟨?_, ?_, ?_⟩
    · rw [hsnoc, (warpRowFold_spec destWcs srcWcs src k edgePixelMask n w _).1, (ih st).1,
        Finset.sum_range_succ]
      omega
    · intro dx dy hdx hdy
      rw [hsnoc]
      by_cases hdn : dy = n
      · subst hdn
        rw [(warpRowFold_spec destWcs srcWcs src k edgePixelMask dy w _).2.1 dx hdx]
      · have hlt : dy < n := by omega
        rw [(warpRowFold_spec destWcs srcWcs src k edgePixelMask n w _).2.2 dx dy
            (by left; exact_mod_cast fun hc => hdn (by exact_mod_cast hc)),
          (ih st).2.1 dx dy hdx hlt]
    · intro a b hab
      rw [hsnoc,
        (warpRowFold_spec destWcs srcWcs src k edgePixelMask n w _).2.2 a b (by omega),
        (ih st).2.2 a b (by omega)]

/-- C5: warpExposure maps every destination pixel through both transforms;
a pixel whose integer source position violates the kernel border margins is
set to the designated edge pixel (zero image value, zero variance, the EDGE
mask) and is not counted; the call never aborts because of such pixels and
returns exactly the number of destination pixels that were not marked as
edge. -/
theorem claim5_warp_edge_handling
    (dest : MaskedImage) (destWcs srcWcs : Wcs) (src : MaskedImage)
    (k : SeparableWarpKernel) (edgePixelMask : ℕ) :
    ((warpExposure dest destWcs src srcWcs k edgePixelMask).2
      = ((Finset.range dest.height ×ˢ Finset.range dest.width).filter
          (fun p => ¬ warpEdge destWcs srcWcs k src.width src.height p.2 p.1)).card)
    ∧ (∀ dx dy : ℕ, dx < dest.width → dy < dest.height →
        warpEdge destWcs srcWcs k src.width src.height dx dy →
        (warpExposure dest destWcs src srcWcs k edgePixelMask).1.pix dx dy
          = ⟨0, edgePixelMask, 0⟩) := by
  constructor
  · rw [warpExposure,
      (warpFold_spec destWcs srcWcs src k edgePixelMask dest.width dest.height (dest, 0)).1,
      Finset.card_filter, Finset.sum_product]
    show 0 + _ = _
    rw [Nat.zero_add]
    refine Finset.sum_congr rfl fun dy _ => Finset.sum_congr rfl fun dx _ => ?_
    by_cases he : warpEdge destWcs srcWcs k src.width src.height dx dy
    · simp [he]
    · simp [he]
  · intro dx dy hdx hdy he
    rw [warpExposure,
      (warpFold_spec destWcs srcWcs src k edgePixelMask dest.width dest.height (dest, 0)).2.1
        dx dy hdx hdy, if_pos he]

/-- Concrete data for the C5 witness: identity transforms, a 1 x 1
destination and a 2 x 2 source; the single destination pixel maps to source
index (0, 0), which violates the left border margin of the bilinear warping
kernel. -/
def exWcsId : Wcs := ⟨fun p => p, fun p => p, fun _ => 1⟩

def exWarpDest : MaskedImage := ⟨1, 1, fun _ _ => ⟨0, 0, 0⟩⟩

def exWarpSrc : MaskedImage := ⟨2, 2, fun _ _ => ⟨0, 0, 0⟩⟩

/-- C5, witness at a concrete instance. -/
theorem claim5_witness :
    0 < exWarpDest.width ∧ 0 < exWarpDest.height
    ∧ warpEdge exWcsId exWcsId (bilinearWarpingKernel (0, 0))
        exWarpSrc.width exWarpSrc.height 0 0
    ∧ (warpExposure exWarpDest exWcsId exWarpSrc exWcsId
        (bilinearWarpingKernel (0, 0)) 4).1.pix 0 0 = ⟨0, 4, 0⟩ := by
  have he : warpEdge exWcsId exWcsId (bilinearWarpingKernel (0, 0))
      exWarpSrc.width exWarpSrc.height 0 0 := by
    rw [warpEdge]
    norm_num [exWcsId, bilinearWarpingKernel, positionToIndex, indexToPosition]
  exact ⟨by norm_num [exWarpDest], by norm_num [exWarpDest], he,
    (claim5_warp_edge_handling exWarpDest exWcsId exWcsId exWarpSrc
        (bilinearWarpingKernel (0, 0)) 4).2 0 0
      (by norm_num [exWarpDest]) (by norm_num [exWarpDest]) he⟩

/-- Concrete data for the C6 failing input: the destination pixel maps to
source position (3/2, 3/2), so the fractional source position is (1/2, 1/2),
while the kernel parameters remain at their initial value (0, 0). -/
def exC6src : MaskedImage := ⟨4, 4, fun x _ => ⟨(x : ℚ), 0, 0⟩⟩

def exC6dest : MaskedImage := ⟨1, 1, fun _ _ => ⟨0, 0, 0⟩⟩

def exC6srcWcs : Wcs := ⟨fun p => p, fun p => (p.1 + 3 / 2, p.2 + 3 / 2), fun _ => 1⟩

/-- C6, evaluation at the failing input: the fractional source position of
the single destination pixel is 1/2 on each axis, yet warpExposure computes
the kernel vectors from the never-updated kernel parameters (0, 0), giving
the destination value 1 with kernel weight sum 1; evaluating the bilinear
kernel vectors at the fractional position (1/2, 1/2), as the claim and the
source doc comment describe, gives the different convolved value 3/2.  The
source computes srcFracInd but never passes it to the kernel
(warpExposure.cc line 184 calls computeVectors with no parameter update),
contradicting its own algorithm description at lines 70-71. -/
theorem claim6_kernel_not_evaluated_at_fractional_position :
    (positionToIndex
        ((exC6srcWcs.raDecToXY (exWcsId.xyToRaDec
          (indexToPosition 0, indexToPosition 0))).1)) = (1, 1 / 2)
    ∧ (warpExposure exC6dest exWcsId exC6src exC6srcWcs
        (bilinearWarpingKernel (0, 0)) 0).1.pix 0 0 = ⟨1, 0, 0⟩
    ∧ (convolveAtAPointSepMasked exC6src 1 1
        ((bilinearWarpingKernel ((1 : ℚ) / 2, (1 : ℚ) / 2)).fx ((1 : ℚ) / 2, (1 : ℚ) / 2))
        ((bilinearWarpingKernel ((1 : ℚ) / 2, (1 : ℚ) / 2)).fy ((1 : ℚ) / 2, (1 : ℚ) / 2))
        2 2).img = 3 / 2 := by
  refine ⟨?_, ?_, ?_⟩
  · rw [positionToIndex]
    norm_num [exC6srcWcs, exWcsId, indexToPosition]
  · have hne : ¬ warpEdge exWcsId exC6srcWcs (bilinearWarpingKernel (0, 0))
        exC6src.width exC6src.height 0 0 := by
      rw [warpEdge]
      norm_num [exWcsId, exC6srcWcs, bilinearWarpingKernel, positionToIndex,
        indexToPosition, exC6src]
    show (warpExposure exC6dest exWcsId exC6src exC6srcWcs
        (bilinearWarpingKernel (0, 0)) 0).1.pix ((0 : ℕ) : ℤ) ((0 : ℕ) : ℤ) = _
    rw [warpExposure,
      (warpFold_spec exWcsId exC6srcWcs exC6src (bilinearWarpingKernel (0, 0)) 0
        exC6dest.width exC6dest.height (exC6dest, 0)).2.1 0 0
        (by norm_num [exC6dest]) (by norm_num [exC6dest]),
      if_neg hne, warpedPixel]
    norm_num [exWcsId, exC6srcWcs, bilinearWarpingKernel, positionToIndex,
      indexToPosition, convolveAtAPointSepMasked, exC6src, bilinearFunction1,
      Finset.sum_range_succ, MaskedImage.pix]
  · rw [convolveAtAPointSepMasked]
    norm_num [bilinearWarpingKernel, bilinearFunction1, exC6src,
      Finset.sum_range_succ]

end afw
